import Mathlib

/-!
Verification of the card-scheduling core of the charactercram repository.

The definitions below are a shallow embedding of the scheduling code in
`src/algorithms.js`, `src/unnamed/part_001` (the extended algorithm module with
the Bucket and Focused Sets variants) and the outcome-recording code in
`src/app.js` (`recordDifficulty`, `backfillSet`).  JS numbers are modelled as
rationals, JS `undefined` as `Option.none`, and every use of `Math.random()`
is threaded through as an explicit rational in `[0,1)` (or, for uniform picks
from a list of length `len`, as an arbitrary natural taken modulo `len`).
-/

namespace CharacterCram

/-- Per-item learning record.  Mirrors the progress objects created by
`recordDifficulty` (src/app.js lines 766-789) and `backfillSet`
(src/app.js lines 1040-1059); fields that JS leaves `undefined` are `Option`. -/
structure Progress where
  firstSeen : ℚ := 0
  reviewCount : ℕ := 0
  successCount : ℕ := 0
  successRate : ℚ := 0
  lastDifficulty : Option ℕ := none
  lastSeen : ℚ := 0
  nextReview : ℚ := 0
  interval : ℚ := 0
  history : List ℕ := []
  targetReviewPosition : Option ℤ := none
  consecutiveGood : ℕ := 0
  wasUnmastered : Bool := false
  masteredAt : Option ℚ := none
  inBucket : Bool := false
  inSet : Bool := false
  setEntryScore : Option ℚ := none
  score : Option ℚ := none
  deriving DecidableEq, Repr

/-- The progress store: the entry list of the JS `userProgress` object
(item index paired with its record). -/
abbrev ProgressMap := List (ℕ × Progress)

/-- Session state threaded through selection calls (`this.algorithmState`). -/
structure SessionState where
  recentFailedCards : List ℕ := []
  sessionCorrectStreak : ℕ := 0
  todayReviews : ℕ := 0
  deriving DecidableEq, Repr

/-- A selection returned by a `getNextCard` implementation.  The `char`
payload is the catalog item looked up at `index`; it is `none` exactly when
the JS code would read `characters[index]` out of bounds (yielding
`undefined`). -/
structure Selection where
  char : Option ℕ := none
  index : ℕ := 0
  isNew : Bool := false
  addToBucket : Bool := false
  addToSet : Bool := false
  isMasteryCheck : Bool := false
  deriving DecidableEq, Repr

/-- Catalog access `characters[i]` for a catalog of `n` items; the item is
identified with its index. -/
def charAt (n i : ℕ) : Option ℕ := if i < n then some i else none

/-- Lookup `userProgress[i]`. -/
def lookupP (pm : ProgressMap) (i : ℕ) : Option Progress :=
  (pm.find? (fun e => e.1 == i)).map (·.2)

/-- Write `userProgress[i] = p`: replace the existing entry, else append. -/
def setP (pm : ProgressMap) (i : ℕ) (p : Progress) : ProgressMap :=
  if (lookupP pm i).isSome then
    pm.map (fun e => if e.1 = i then (i, p) else e)
  else
    pm ++ [(i, p)]

/-! ### Time-based interval functions (src/algorithms.js) -/

/-- Default `maxInterval` from `BaseAlgorithm.getDefaultConfig` (7 days in
milliseconds); this is also the Improved variant's configured value. -/
def improvedMaxInterval : ℚ := 7 * 24 * 60 * 60 * 1000

/-- The Anki variant's configured `maxInterval`: the config spread in
`AnkiAlgorithm`'s constructor keeps the inherited default (7 days). -/
def ankiConfigMaxInterval : ℚ := 7 * 24 * 60 * 60 * 1000

/-- The Aggressive variant's configured `maxInterval`: its constructor does
not override the inherited default (7 days). -/
def aggressiveConfigMaxInterval : ℚ := 7 * 24 * 60 * 60 * 1000

/-- The difficulty-keyed base factor of
`ImprovedSSRAlgorithm.calculateNextInterval` (the `switch` on lines 169-176). -/
def improvedFactorBase (difficulty : ℕ) : ℚ :=
  match difficulty with
  | 2 => 11 / 10
  | 3 => 13 / 10
  | 4 => 2
  | 5 => 3
  | _ => 3 / 2

/-- The success-rate adjustment of the Improved factor (lines 178-182). -/
def improvedFactor (difficulty : ℕ) (successRate : ℚ) : ℚ :=
  let factor := improvedFactorBase difficulty
  if successRate < 1 / 2 then factor * (3 / 5)
  else if successRate > 9 / 10 then factor * (13 / 10)
  else factor

/-- `ImprovedSSRAlgorithm.calculateNextInterval` (src/algorithms.js 166-186). -/
def improvedCalculateNextInterval (difficulty : ℕ)
    (currentInterval successRate : ℚ) : ℚ :=
  if difficulty = 1 then 30 * 1000
  else max (min (currentInterval * improvedFactor difficulty successRate)
      improvedMaxInterval) (30 * 1000)

/-- `AnkiAlgorithm.calculateNextInterval` (src/algorithms.js 246-263); note
the hardcoded 365-day cap, independent of the configured `maxInterval`. -/
def ankiCalculateNextInterval (difficulty : ℕ)
    (currentInterval _successRate : ℚ) : ℚ :=
  if difficulty = 1 then 1 * 60 * 1000
  else
    let ease : ℚ := 5 / 2
    let factor : ℚ :=
      match difficulty with
      | 2 => ease * (3 / 5)
      | 3 => ease * (4 / 5)
      | 4 => ease
      | 5 => ease * (13 / 10)
      | _ => ease
    min (currentInterval * factor * 1) (365 * 24 * 60 * 60 * 1000)

/-- `AggressiveAlgorithm.calculateNextInterval` (src/algorithms.js 296-307);
the hardcoded cap is 3 days. -/
def aggressiveCalculateNextInterval (difficulty : ℕ)
    (currentInterval successRate : ℚ) : ℚ :=
  if difficulty = 1 then 15 * 1000
  else
    let factor : ℚ := 1 + ((difficulty : ℚ) - 1) * (1 / 4)
    let adjustedFactor :=
      if successRate > 4 / 5 then factor * (6 / 5) else factor * (4 / 5)
    min (currentInterval * adjustedFactor) (3 * 24 * 60 * 60 * 1000)

/-! ### Position-interval target computation (MasteryBasedAlgorithm) -/

/-- `config.difficultyIntervals` of `MasteryBasedAlgorithm`
(src/algorithms.js 320-326). -/
def difficultyIntervals (difficulty : ℕ) : Option (ℕ × ℕ) :=
  match difficulty with
  | 1 => some (1, 3)
  | 2 => some (4, 8)
  | 3 => some (9, 20)
  | 4 => some (21, 50)
  | 5 => some (51, 100)
  | _ => none

/-- `MasteryBasedAlgorithm.calculateTargetReviewPosition`
(src/algorithms.js 456-465); `r` stands for the `Math.random()` draw. -/
def calculateTargetReviewPosition (sessionCardsSeen difficulty : ℕ)
    (r : ℚ) : ℤ :=
  match difficultyIntervals difficulty with
  | none => (sessionCardsSeen : ℤ) + 10
  | some (mn, mx) =>
    let bandRange : ℕ := mx - mn
    let offset : ℤ := (mn : ℤ) + ⌊r * (bandRange : ℚ)⌋
    (sessionCardsSeen : ℤ) + offset

/-! ### ImprovedSSRAlgorithm selection (src/algorithms.js 66-153)

The JS `recentFailedCards` Set is modelled as the (duplicate-free) list of its
elements; `Set.has` is list membership and `Set.size` is list length. -/

/-- Cards as built by the categorization loops: `{char, index, priority}`. -/
structure RatedCard where
  char : Option ℕ := none
  index : ℕ := 0
  priority : ℚ := 0
  deriving DecidableEq, Repr

/-- `ImprovedSSRAlgorithm.calculateFailedCardPriority` (lines 133-142). -/
def calculateFailedCardPriority (p : Progress) (now : ℚ) : ℚ :=
  let timeSinceSeen := now - p.lastSeen
  let priority := 1000 - timeSinceSeen / (1000 * 60)
  let priority := if p.lastDifficulty = some 1 then priority + 100 else priority
  max priority 0

/-- `ImprovedSSRAlgorithm.calculateReviewPriority` (lines 144-153); the JS
`progress.lastDifficulty || 3` treats a missing (or zero) value as 3. -/
def calculateReviewPriority (p : Progress) (now : ℚ) : ℚ :=
  let overdue := now - p.nextReview
  let difficulty : ℚ :=
    match p.lastDifficulty with
    | some d => if d = 0 then 3 else (d : ℚ)
    | none => 3
  overdue / (1000 * 60 * 60) + (6 - difficulty) * 10 + (1 - p.successRate) * 20

/-- The `failedCards` list of `ImprovedSSRAlgorithm.getNextCard`: items with a
record that are in `recentFailedCards` (lines 81-83). -/
def improvedFailedCards (n : ℕ) (pm : ProgressMap) (st : SessionState)
    (now : ℚ) : List RatedCard :=
  (List.range n).filterMap (fun i =>
    match lookupP pm i with
    | none => none
    | some p =>
      if st.recentFailedCards.contains i then
        some { char := charAt n i, index := i,
               priority := calculateFailedCardPriority p now }
      else none)

/-- The `dueCards` list of `ImprovedSSRAlgorithm.getNextCard` (lines 84-87). -/
def improvedDueCards (n : ℕ) (pm : ProgressMap) (st : SessionState)
    (now : ℚ) : List RatedCard :=
  (List.range n).filterMap (fun i =>
    match lookupP pm i with
    | none => none
    | some p =>
      if st.recentFailedCards.contains i then none
      else if p.nextReview ≤ now then
        some { char := charAt n i, index := i,
               priority := calculateReviewPriority p now }
      else none)

/-- The `newCards` list: items without a record, priority = index (line 79). -/
def improvedNewCards (n : ℕ) (pm : ProgressMap) : List RatedCard :=
  (List.range n).filterMap (fun i =>
    match lookupP pm i with
    | none => some { char := charAt n i, index := i, priority := (i : ℚ) }
    | some _ => none)

/-- `BaseAlgorithm.getNewCardsSeenToday` (lines 45-56). -/
def getNewCardsSeenToday (pm : ProgressMap) (todayStart : ℚ) : ℕ :=
  pm.countP (fun e => todayStart ≤ e.2.firstSeen)

/-- The descending-priority comparison used for `.sort((a,b) => b.priority - a.priority)`. -/
def byPriorityDesc (a b : RatedCard) : Bool := decide (b.priority ≤ a.priority)

/-- The oldest-`lastSeen` fallback scan of `ImprovedSSRAlgorithm.getNextCard`
(lines 118-128). -/
def improvedOldest (n : ℕ) (pm : ProgressMap) (now : ℚ) : Option RatedCard :=
  ((List.range n).foldl (fun (acc : Option RatedCard × ℚ) i =>
    match lookupP pm i with
    | some p =>
      if p.lastSeen < acc.2 then
        (some { char := charAt n i, index := i, priority := 0 }, p.lastSeen)
      else acc
    | none => acc) (none, now)).1

/-- `ImprovedSSRAlgorithm.getNextCard` (src/algorithms.js 66-131).  The
Improved config: `maxFailedCardsBeforeNew = 3`, `minCorrectStreakForNew = 2`,
`maxNewCardsPerDay = 5`. -/
def improvedGetNextCard (n : ℕ) (pm : ProgressMap) (st : SessionState)
    (now todayStart : ℚ) : RatedCard :=
  let failedSorted := (improvedFailedCards n pm st now).mergeSort byPriorityDesc
  let dueSorted := (improvedDueCards n pm st now).mergeSort byPriorityDesc
  let newCards := improvedNewCards n pm
  match failedSorted with
  | c :: _ => c
  | [] =>
    match dueSorted with
    | c :: _ => c
    | [] =>
      let shouldIntroduceNew : Bool :=
        decide (st.recentFailedCards.length < 3) &&
        decide (2 ≤ st.sessionCorrectStreak)
      let newCardsToday := getNewCardsSeenToday pm todayStart
      let newPick : Option RatedCard :=
        match newCards with
        | c :: _ => if decide (newCardsToday < 5) && shouldIntroduceNew then some c else none
        | [] => none
      match newPick with
      | some c => c
      | none =>
        match improvedOldest n pm now with
        | some c => c
        | none => { char := charAt n 0, index := 0, priority := 0 }

/-- `AnkiAlgorithm.getNextCard` (src/algorithms.js 203-233).  Note the final
`return newCards[0] || fallback`: when new cards exist they are returned even
if the daily gate `newCardsToday < maxNewCardsPerDay` failed, so the gate is
vacuous here. -/
def ankiGetNextCard (n : ℕ) (pm : ProgressMap) (_st : SessionState)
    (now _todayStart : ℚ) : RatedCard :=
  let dueSorted := ((List.range n).filterMap (fun i =>
    match lookupP pm i with
    | none => none
    | some p =>
      if p.nextReview ≤ now then
        some { char := charAt n i, index := i, priority := now - p.nextReview }
      else none)).mergeSort byPriorityDesc
  let newCards := improvedNewCards n pm
  match dueSorted with
  | c :: _ => c
  | [] =>
    match newCards with
    | c :: _ => c
    | [] => { char := charAt n 0, index := 0, priority := 0 }

/-- `AggressiveAlgorithm.getNextCard` delegates to a fresh
`ImprovedSSRAlgorithm` instance (src/algorithms.js 279-282). -/
def aggressiveGetNextCard (n : ℕ) (pm : ProgressMap) (st : SessionState)
    (now todayStart : ℚ) : RatedCard :=
  improvedGetNextCard n pm st now todayStart

/-! ### MasteryBasedAlgorithm selection (src/algorithms.js 354-453) -/

/-- Cards as categorized by `MasteryBasedAlgorithm.getNextCard`. -/
structure MCard where
  char : Option ℕ := none
  index : ℕ := 0
  overdue : ℤ := 0
  cardsUntilDue : ℤ := 0
  deriving DecidableEq, Repr

/-- The `dueNow` list: recorded items whose `targetReviewPosition` is at most
the (already incremented) session counter, plus old records without a target
position (lines 375-411). -/
def masteryDueNow (n : ℕ) (pm : ProgressMap) (counter : ℕ) : List MCard :=
  (List.range n).filterMap (fun i =>
    match lookupP pm i with
    | none => none
    | some p =>
      match p.targetReviewPosition with
      | some t =>
        let cardsUntilDue := t - (counter : ℤ)
        if cardsUntilDue ≤ 0 then
          some { char := charAt n i, index := i, overdue := |cardsUntilDue| }
        else none
      | none => some { char := charAt n i, index := i, overdue := 0 })

/-- The `dueSoon` list: target position within the next 5 positions. -/
def masteryDueSoon (n : ℕ) (pm : ProgressMap) (counter : ℕ) : List MCard :=
  (List.range n).filterMap (fun i =>
    match lookupP pm i with
    | none => none
    | some p =>
      match p.targetReviewPosition with
      | some t =>
        let cardsUntilDue := t - (counter : ℤ)
        if 0 < cardsUntilDue ∧ cardsUntilDue ≤ 5 then
          some { char := charAt n i, index := i, cardsUntilDue := cardsUntilDue }
        else none
      | none => none)

/-- The `dueLater` list: target position more than 5 positions away. -/
def masteryDueLater (n : ℕ) (pm : ProgressMap) (counter : ℕ) : List MCard :=
  (List.range n).filterMap (fun i =>
    match lookupP pm i with
    | none => none
    | some p =>
      match p.targetReviewPosition with
      | some t =>
        let cardsUntilDue := t - (counter : ℤ)
        if 5 < cardsUntilDue then
          some { char := charAt n i, index := i, cardsUntilDue := cardsUntilDue }
        else none
      | none => none)

/-- The `newCards` list of the Mastery variant. -/
def masteryNewCards (n : ℕ) (pm : ProgressMap) : List MCard :=
  (List.range n).filterMap (fun i =>
    match lookupP pm i with
    | none => some { char := charAt n i, index := i }
    | some _ => none)

/-- `MasteryBasedAlgorithm.getNextCard` (src/algorithms.js 354-453).  The
instance field `this.sessionCardsSeen` is threaded explicitly: the function
takes its value before the call and returns the incremented value alongside
the selection.  `r` stands for the `Math.random()` pick among the top-3 most
overdue due-now cards (an arbitrary natural taken modulo the slice length). -/

def masteryGetNextCard (n : ℕ) (pm : ProgressMap) (st : SessionState)
    (sessionCardsSeen : ℕ) (r : ℕ) : MCard × ℕ :=
  let counter := sessionCardsSeen + 1
  let dueNow := masteryDueNow n pm counter
  let dueSoon := masteryDueSoon n pm counter
  let dueLater := masteryDueLater n pm counter
  let newCards := masteryNewCards n pm
  let sel : MCard :=
    if 0 < dueNow.length then
      let sorted := dueNow.mergeSort (fun a b => decide (b.overdue ≤ a.overdue))
      let topCandidates := sorted.take (min 3 dueNow.length)
      topCandidates.getD (r % topCandidates.length) { char := none, index := 0 }
    else
      let lower : MCard :=
        if 0 < dueSoon.length then
          (dueSoon.mergeSort (fun a b => decide (a.cardsUntilDue ≤ b.cardsUntilDue))).getD 0
            { char := none, index := 0 }
        else if 0 < dueLater.length then
          (dueLater.mergeSort (fun a b => decide (a.cardsUntilDue ≤ b.cardsUntilDue))).getD 0
            { char := none, index := 0 }
        else if 0 < newCards.length then
          newCards.getD 0 { char := none, index := 0 }
        else { char := charAt n 0, index := 0 }
      if 0 < newCards.length ∧ 1 ≤ st.sessionCorrectStreak then
        newCards.getD 0 { char := none, index := 0 }
      else lower
  (sel, counter)

/-! ### BucketAlgorithm selection (src/unnamed/part_001 480-624) -/

/-- The Bucket variant's configured bucket capacity. -/
def bucketSize : ℕ := 5

/-- `BucketAlgorithm.isCardMastered` (lines 492-506) with the default
`masteryThreshold = 3`; the JS `!progress.consecutiveGood` truthiness test is
subsumed by the `< 3` comparison. -/
def isCardMastered (p : Progress) : Bool :=
  decide (3 ≤ p.consecutiveGood) && !p.wasUnmastered

/-- `BucketAlgorithm.getActiveBucket` (lines 509-519): indices of recorded
items with `inBucket` set that are not mastered, in progress-entry order. -/
def activeBucket (pm : ProgressMap) : List ℕ :=
  (pm.filter (fun e => e.2.inBucket && !isCardMastered e.2)).map (·.1)

/-- `BucketAlgorithm.getMasteredCards` (lines 522-532). -/
def getMasteredCards (pm : ProgressMap) : List ℕ :=
  (pm.filter (fun e => isCardMastered e.2)).map (·.1)

/-- `BucketAlgorithm.getNextCard` (lines 534-609).  `pull` is the
`Math.random() < masteredReviewChance` draw; `rm`, `rb`, `rm2` stand for the
uniform index draws into the mastered, bucket, and mastered lists (an
arbitrary natural taken modulo the length).  Each JS `return` guarded by
`if (characters[cardIndex])` is an `Option` that falls through to the next
stage when the guard fails; the ultimate fallback is `null` (`none`). -/
def bucketStep1 (n : ℕ) (pm : ProgressMap) (pull : Bool)
    (rm : ℕ) : Option Selection :=
  let mastered := getMasteredCards pm
  if (activeBucket pm).length < bucketSize then
    if pull && decide (0 < mastered.length) then
      let cardIndex := mastered.getD (rm % mastered.length) 0
      if (charAt n cardIndex).isSome then
        some { char := charAt n cardIndex, index := cardIndex,
               isMasteryCheck := true }
      else none
    else
      match (List.range n).find? (fun i => (lookupP pm i).isNone) with
      | some i => some { char := charAt n i, index := i, isNew := true,
                         addToBucket := true }
      | none => none
  else none

def bucketStep2 (n : ℕ) (pm : ProgressMap) (rb : ℕ) : Option Selection :=
  let bucketCards := activeBucket pm
  if 0 < bucketCards.length then
    let cardIndex := bucketCards.getD (rb % bucketCards.length) 0
    if (charAt n cardIndex).isSome then
      some { char := charAt n cardIndex, index := cardIndex }
    else none
  else none

def bucketStep3 (n : ℕ) (pm : ProgressMap) (rm2 : ℕ) : Option Selection :=
  let mastered := getMasteredCards pm
  if 0 < mastered.length then
    let cardIndex := mastered.getD (rm2 % mastered.length) 0
    if (charAt n cardIndex).isSome then
      some { char := charAt n cardIndex, index := cardIndex,
             isMasteryCheck := true }
    else none
  else none

def bucketStep4 (n : ℕ) : Option Selection :=
  if 0 < n then
    some { char := charAt n 0, index := 0, isNew := true, addToBucket := true }
  else none

def bucketGetNextCard (n : ℕ) (pm : ProgressMap) (pull : Bool)
    (rm rb rm2 : ℕ) : Option Selection :=
  bucketStep1 n pm pull rm <|> bucketStep2 n pm rb <|>
    bucketStep3 n pm rm2 <|> bucketStep4 n

/-! ### FocusedSetsAlgorithm (src/unnamed/part_001 635-849) -/

/-- The Focused Sets variant's configured set capacity. -/
def setSize : ℕ := 5

/-- A weighted-sampling candidate: item index paired with its score. -/
abbrev Cand := ℕ × ℚ

/-- `FocusedSetsAlgorithm.getCardScore` (lines 649-652) with
`initialScore = 0`. -/
def getCardScore (op : Option Progress) : ℚ :=
  match op with
  | none => 0
  | some p => p.score.getD 0

/-- `FocusedSetsAlgorithm.updateScore` (lines 662-672). -/
def updateScore (currentScore : ℚ) (difficulty : ℕ) : ℚ :=
  currentScore +
    (match difficulty with
     | 1 => 5
     | 2 => 3
     | 3 => 1
     | 4 => -1
     | 5 => -3
     | _ => 0)

/-- `Math.min(...scores)` over a candidate score list; the empty case is
never reached (the caller guards on at least two items). -/
def minScoreOf (scores : List ℚ) : ℚ :=
  match scores with
  | [] => 0
  | s :: rest => rest.foldl min s

/-- The positivity offset of `weightedRandomSelect` (lines 744-745):
`minScore < 0 ? Math.abs(minScore) + 1 : 0`. -/
def wrsOffset (scores : List ℚ) : ℚ :=
  let minScore := minScoreOf scores
  if minScore < 0 then |minScore| + 1 else 0

/-- The per-candidate weights of `weightedRandomSelect` (lines 747-750):
`max(score + offset, 0.1)`. -/
def wrsWeights (items : List Cand) : List ℚ :=
  let offset := wrsOffset (items.map (·.2))
  items.map (fun it => max (it.2 + offset) (1 / 10))

/-- The cumulative-sum loop of `weightedRandomSelect` (lines 755-760):
subtract each weight from the running draw and return the first item at
which the draw drops to 0 or below. -/
def cumSelect {α : Type} : List (α × ℚ) → ℚ → Option α
  | [], _ => none
  | (a, w) :: rest, r => if r - w ≤ 0 then some a else cumSelect rest (r - w)

/-- `FocusedSetsAlgorithm.weightedRandomSelect` (lines 738-763), specialized
to candidates weighted by their score component.  `r` is the `Math.random()`
draw. -/
def weightedRandomSelect (items : List Cand) (r : ℚ) : Option Cand :=
  match items with
  | [] => none
  | [x] => some x
  | x :: y :: rest =>
    let weights := wrsWeights (x :: y :: rest)
    let totalWeight := weights.sum
    match cumSelect ((x :: y :: rest).zip weights) (r * totalWeight) with
    | some a => some a
    | none => some ((x :: y :: rest).getLast (List.cons_ne_nil _ _))

/-- `FocusedSetsAlgorithm.getActiveSet` (lines 717-733), carrying index and
current score of every record with `inSet` set, in progress-entry order. -/
def getActiveSet (pm : ProgressMap) : List Cand :=
  pm.filterMap (fun e =>
    if e.2.inSet then some (e.1, getCardScore (some e.2)) else none)

/-- The candidate scan shared by `FocusedSetsAlgorithm.getNextCard`
(lines 777-789) and `backfillSet` in app.js (lines 1019-1032): every catalog
index whose record is absent or not in the set, with its current score. -/
def fsCandidates (n : ℕ) (pm : ProgressMap) : List Cand :=
  (List.range n).filterMap (fun i =>
    match lookupP pm i with
    | some p => if p.inSet then none else some (i, getCardScore (some p))
    | none => some (i, getCardScore none))

/-- `FocusedSetsAlgorithm.getNextCard` (lines 769-820).  `r` is the
`Math.random()` draw of the weighted backfill selection, `rSet` the uniform
index draw into the active set. -/
def fsGetNextCard (n : ℕ) (pm : ProgressMap) (r : ℚ) (rSet : ℕ) : Selection :=
  let setCards := getActiveSet pm
  let backfillPick : Option Selection :=
    if setCards.length < setSize then
      match weightedRandomSelect (fsCandidates n pm) r with
      | some (i, _) =>
        some { char := charAt n i, index := i, addToSet := true,
               isNew := (lookupP pm i).isNone }
      | none => none
    else none
  match backfillPick with
  | some s => s
  | none =>
    if 0 < setCards.length then
      let sel := setCards.getD (rSet % setCards.length) (0, 0)
      { char := charAt n sel.1, index := sel.1 }
    else { char := charAt n 0, index := 0, addToSet := true, isNew := true }

/-! ### C8: the weighted sampling of the Score-Weighted variant -/

/-- Modelled from the spec (the formula asserted by claim C8): the positivity
offset `max(0, -min(scores) + 1)`. -/
def claimedOffset (scores : List ℚ) : ℚ := max 0 (-(minScoreOf scores) + 1)

/-- Reference characterization of a cumulative-sum draw: the first index at
which the running sum of the weights reaches the target. -/
def reachIndex (ws : List ℚ) (t : ℚ) : Option ℕ :=
  (List.range ws.length).find? (fun i => decide (t ≤ (ws.take (i + 1)).sum))

/-! ### C7: the Improved variant's first-priority (failed) candidates -/

/-- Modelled from the spec (claim C7's wording): the claimed first-priority
candidate set — item indices that are both in `recentFailedCards` AND due
(`nextReview ≤ now`). -/
def claimedFailedIndices (n : ℕ) (pm : ProgressMap) (st : SessionState)
    (now : ℚ) : List ℕ :=
  (List.range n).filter (fun i =>
    match lookupP pm i with
    | some p => st.recentFailedCards.contains i && decide (p.nextReview ≤ now)
    | none => false)

/-- Modelled from the spec (claim C7's formula):
`max(0, 1000 − minutesSinceLastSeen) + (100 if lastDifficulty==1 else 0)`. -/
def claimedFailedScore (p : Progress) (now : ℚ) : ℚ :=
  max 0 (1000 - (now - p.lastSeen) / (1000 * 60)) +
    (if p.lastDifficulty = some 1 then 100 else 0)

/-- Modelled from the amended wording of claim C7: the failed-card score is
`max(1000 − minutesSinceLastSeen + (100 if lastDifficulty==1 else 0), 0)`,
the 100 bonus applied inside the clamp to 0. -/
def amendedFailedScore (p : Progress) (now : ℚ) : ℚ :=
  max (1000 - (now - p.lastSeen) / (1000 * 60) +
    (if p.lastDifficulty = some 1 then 100 else 0)) 0

/-! ### Outcome recording for the Bucket variant (src/app.js 728-893)

Session-state bookkeeping (`recentFailedCards`, `sessionCorrectStreak`) does
not feed back into the Bucket variant's selection or its progress updates, so
the recorder is modelled as a pure transformation of the progress store. -/

/-- The first-presentation record created by `recordDifficulty`
(src/app.js 766-789) under the Bucket variant: `isCardCorrect` is the ≥4
override, both interval helpers return the 1000 ms placeholder, there is no
`calculateTargetReviewPosition`, `initialScore` is 0 and no `addToSet` flag
is ever produced by Bucket selections. -/
def newBucketProgress (difficulty : ℕ) (addToBucket : Bool)
    (now : ℚ) : Progress :=
  { firstSeen := now
    reviewCount := 1
    successCount := if 4 ≤ difficulty then 1 else 0
    successRate := if 4 ≤ difficulty then 1 else 0
    lastDifficulty := some difficulty
    lastSeen := now
    nextReview := now + 1000
    interval := 1000
    history := [difficulty]
    targetReviewPosition := none
    consecutiveGood := if 4 ≤ difficulty then 1 else 0
    wasUnmastered := false
    masteredAt := none
    inBucket := addToBucket
    inSet := false
    setEntryScore := none
    score := some 0 }

/-- The existing-record update of `recordDifficulty` (src/app.js 799-887)
under the Bucket variant: `masteryThreshold = 3` is configured, so the
mastery transitions run with the bucket-membership side effects of the
`'Bucket Learning'` branches; the Focused Sets score block is skipped. -/
def updateBucketProgress (progress : Progress) (difficulty : ℕ)
    (now : ℚ) : Progress :=
  let reviewCount := progress.reviewCount + 1
  let successCount :=
    if 4 ≤ difficulty then progress.successCount + 1 else progress.successCount
  let p1 := { progress with
    reviewCount := reviewCount
    lastDifficulty := some difficulty
    lastSeen := now
    history := progress.history ++ [difficulty]
    successCount := successCount
    successRate := (successCount : ℚ) / (reviewCount : ℚ) }
  let p2 :=
    if 4 ≤ difficulty then
      let cg := p1.consecutiveGood + 1
      if cg = 3 ∧ p1.masteredAt = none then
        { p1 with
          consecutiveGood := cg
          masteredAt := some now
          wasUnmastered := false
          inBucket := false }
      else { p1 with consecutiveGood := cg }
    else
      if p1.masteredAt ≠ none then
        { p1 with
          consecutiveGood := 0
          wasUnmastered := true
          masteredAt := none
          inBucket := true }
      else { p1 with consecutiveGood := 0 }
  { p2 with interval := 1000, nextReview := now + 1000 }

/-- `recordDifficulty` under the Bucket variant, as a progress-store
transformation; `addToBucket` is the flag of the selection being rated. -/
def recordBucket (pm : ProgressMap) (index difficulty : ℕ) (addToBucket : Bool)
    (now : ℚ) : ProgressMap :=
  match lookupP pm index with
  | none => setP pm index (newBucketProgress difficulty addToBucket now)
  | some progress => setP pm index (updateBucketProgress progress difficulty now)

/-- One iteration of the host loop under the Bucket variant: select (with
explicit randomness), then record an arbitrary rating for the selected item;
an empty (null) selection records nothing. -/
def bucketHostStep (n : ℕ) (pm : ProgressMap) (pull : Bool)
    (rm rb rm2 difficulty : ℕ) (now : ℚ) : ProgressMap :=
  match bucketGetNextCard n pm pull rm rb rm2 with
  | none => pm
  | some sel => recordBucket pm sel.index difficulty sel.addToBucket now

/-- Progress stores reachable from an empty store by host-loop iterations of
the Bucket variant. -/
inductive BucketReachable (n : ℕ) : ProgressMap → Prop
  | init : BucketReachable n []
  | step (pm : ProgressMap) (pull : Bool) (rm rb rm2 difficulty : ℕ) (now : ℚ) :
      BucketReachable n pm →
      BucketReachable n (bucketHostStep n pm pull rm rb rm2 difficulty now)

/-! ### Progress-store infrastructure lemmas -/

/-- The key list of a progress store. -/
def keysOf (pm : ProgressMap) : List ℕ := pm.map (·.1)

/-- The active-bucket test on a record: in the bucket and not mastered. -/
def isActive (p : Progress) : Bool := p.inBucket && !isCardMastered p

/-- The active-bucket membership test on an entry. -/
def activeP (e : ℕ × Progress) : Bool := isActive e.2

/-- Bookkeeping facts that hold of every record maintained by the Bucket
variant: a good streak of 3 or more coincides with a set `masteredAt` and a
cleared `wasUnmastered`, and a mastered record is never flagged `inBucket`. -/
def EntryInv (p : Progress) : Prop :=
  (3 ≤ p.consecutiveGood → p.masteredAt ≠ none ∧ p.wasUnmastered = false) ∧
  (p.masteredAt ≠ none → 3 ≤ p.consecutiveGood) ∧
  (isCardMastered p = true → p.inBucket = false)

/-- The combined per-state invariant of the Bucket host loop. -/
def BucketInv (n : ℕ) (pm : ProgressMap) : Prop :=
  (activeBucket pm).length ≤ bucketSize ∧
  (keysOf pm).Nodup ∧
  ∀ e ∈ pm, e.1 < n ∧ EntryInv e.2

/-! ### Outcome recording for the Focused Sets variant (src/app.js 728-893,
plus `backfillSet`, src/app.js 1014-1069)

The Focused Sets config has no `masteryThreshold`, so the mastery-transition
branches are skipped (only `consecutiveGood` is maintained); `isCardCorrect`
is the default ≥3 threshold, the interval helpers return the 1000 ms
placeholder, `initialScore` is 0, and the score/set block runs. -/

/-- The first-presentation record created by `recordDifficulty` under the
Focused Sets variant; the score starts at `initialScore` and is immediately
updated by the rating (src/app.js 766-798). -/
def newFocusedProgress (difficulty : ℕ) (addToSet : Bool)
    (now : ℚ) : Progress :=
  { firstSeen := now
    reviewCount := 1
    successCount := if 3 ≤ difficulty then 1 else 0
    successRate := if 3 ≤ difficulty then 1 else 0
    lastDifficulty := some difficulty
    lastSeen := now
    nextReview := now + 1000
    interval := 1000
    history := [difficulty]
    targetReviewPosition := none
    consecutiveGood := if 4 ≤ difficulty then 1 else 0
    wasUnmastered := false
    masteredAt := none
    inBucket := false
    inSet := addToSet
    setEntryScore := if addToSet then some 0 else none
    score := some (updateScore 0 difficulty) }

/-- The record `backfillSet` creates for a never-seen card it admits to the
set (src/app.js 1040-1059): `reviewCount` 0, empty history — the card has
not been presented. -/
def backfillProgress (sc : ℚ) (now : ℚ) : Progress :=
  { firstSeen := now
    reviewCount := 0
    successCount := 0
    successRate := 0
    lastDifficulty := none
    lastSeen := now
    nextReview := now
    interval := 1000
    history := []
    targetReviewPosition := none
    consecutiveGood := 0
    wasUnmastered := false
    masteredAt := none
    inBucket := false
    inSet := true
    setEntryScore := some sc
    score := some sc }

/-- `backfillSet` (src/app.js 1014-1069): weighted-sample one candidate not
currently in the set and admit it, creating a fresh record if the candidate
has none.  The second component is instrumentation recording which index was
admitted (`none` when there were no candidates). -/
def backfillSet (n : ℕ) (pm : ProgressMap) (now r : ℚ) :
    ProgressMap × Option ℕ :=
  match weightedRandomSelect (fsCandidates n pm) r with
  | none => (pm, none)
  | some (j, sc) =>
    match lookupP pm j with
    | none => (setP pm j (backfillProgress sc now), some j)
    | some q =>
      (setP pm j { q with inSet := true, setEntryScore := some sc }, some j)

/-- `recordDifficulty` under the Focused Sets variant (src/app.js 728-893),
with `backfillSet` invoked on graduation.  The second component is
instrumentation: the index admitted by the backfill, if any. -/
def recordFocusedAux (n : ℕ) (pm : ProgressMap) (index difficulty : ℕ)
    (addToSet : Bool) (now rback : ℚ) : ProgressMap × Option ℕ :=
  match lookupP pm index with
  | none => (setP pm index (newFocusedProgress difficulty addToSet now), none)
  | some progress =>
    let reviewCount := progress.reviewCount + 1
    let successCount :=
      if 3 ≤ difficulty then progress.successCount + 1 else progress.successCount
    let p1 := { progress with
      reviewCount := reviewCount
      lastDifficulty := some difficulty
      lastSeen := now
      history := progress.history ++ [difficulty]
      successCount := successCount
      successRate := (successCount : ℚ) / (reviewCount : ℚ)
      consecutiveGood :=
        if 4 ≤ difficulty then progress.consecutiveGood + 1 else 0
      interval := 1000
      nextReview := now + 1000 }
    let currentScore := progress.score.getD 0
    let newScore := updateScore currentScore difficulty
    let p2 := { p1 with score := some newScore }
    let p3 :=
      if addToSet && !progress.inSet then
        { p2 with inSet := true, setEntryScore := some currentScore }
      else p2
    match p3.setEntryScore, p3.inSet with
    | some entry, true =>
      if newScore < entry then
        backfillSet n (setP pm index { p3 with inSet := false }) now rback
      else (setP pm index p3, none)
    | _, _ => (setP pm index p3, none)

/-- The progress-store component of the Focused Sets recorder. -/
def recordFocused (n : ℕ) (pm : ProgressMap) (index difficulty : ℕ)
    (addToSet : Bool) (now rback : ℚ) : ProgressMap :=
  (recordFocusedAux n pm index difficulty addToSet now rback).1

/-- Ghost presentation counter update: one more presentation of item `i`. -/
def bump (f : ℕ → ℕ) (i : ℕ) : ℕ → ℕ :=
  fun j => if j = i then f j + 1 else f j

/-- Ghost backfill counter update. -/
def bumpOpt (f : ℕ → ℕ) : Option ℕ → (ℕ → ℕ)
  | none => f
  | some i => bump f i

/-- Ghost counter update for a whole list of admissions. -/
def bumps (f : ℕ → ℕ) : List ℕ → (ℕ → ℕ)
  | [] => f
  | i :: rest => bumps (bump f i) rest

/-- The record app.js `init` (lines 139-161) creates for each index returned
by `initializeSet` that has no record yet: `reviewCount` 0, empty history,
`inSet` set, entry score 0 and score 0. -/
def initRecord (now : ℚ) : Progress :=
  { firstSeen := now
    reviewCount := 0
    successCount := 0
    successRate := 0
    lastDifficulty := none
    lastSeen := now
    nextReview := now
    interval := 1000
    history := []
    targetReviewPosition := none
    consecutiveGood := 0
    wasUnmastered := false
    masteredAt := none
    inBucket := false
    inSet := true
    setEntryScore := some 0
    score := some 0 }

/-- The selection loop of `FocusedSetsAlgorithm.initializeSet`
(src/unnamed/part_001 698-709): weighted-sample one candidate per round from
the remaining candidate list and remove the pick (`findIndex` + `splice`);
`rs k` is the round's `Math.random()` draw.  The fuel is the loop bound
`min setSize candidates.length`; the `none` arm is the
`candidates.length === 0` break. -/
def initSelect (cands : List Cand) (fuel : ℕ) (rs : ℕ → ℚ) (k : ℕ) :
    List ℕ :=
  match fuel with
  | 0 => []
  | fuel + 1 =>
    match weightedRandomSelect cands (rs k) with
    | none => []
    | some (j, _) =>
      j :: initSelect (cands.eraseP (fun c => c.1 == j)) fuel rs (k + 1)

/-- `FocusedSetsAlgorithm.initializeSet` (src/unnamed/part_001 678-712): a
no-op when the active set is nonempty; otherwise the candidate list is the
same absent-or-unset scan as `getNextCard` uses (lines 686-696 build it the
same way), and up to `setSize` indices are weighted-sampled without
replacement. -/
def initializeSet (n : ℕ) (pm : ProgressMap) (rs : ℕ → ℚ) : List ℕ :=
  if 0 < (getActiveSet pm).length then []
  else initSelect (fsCandidates n pm)
    (min setSize (fsCandidates n pm).length) rs 0

/-- The record-creation loop of app.js `init` (lines 139-162): for each
selected index that has no record yet, write `initRecord`. -/
def applyInit (pm : ProgressMap) (now : ℚ) : List ℕ → ProgressMap
  | [] => pm
  | i :: rest =>
    applyInit
      (if (lookupP pm i).isSome then pm else setP pm i (initRecord now))
      now rest

/-- States of the Focused Sets host loop reachable from a fresh start:
app.js `init` (lines 134-168) first populates the set via `initializeSet`,
then each iteration selects a card (with explicit randomness) and records an
arbitrary rating for it.  Ghost counters: how often each item was presented
(`seen`), admitted by a graduation backfill (`backfilled`), and admitted at
initialization (`inited`). -/
inductive FSReachable (n : ℕ) :
    ProgressMap → (ℕ → ℕ) → (ℕ → ℕ) → (ℕ → ℕ) → Prop
  | init (now : ℚ) (rs : ℕ → ℚ) :
      FSReachable n (applyInit [] now (initializeSet n [] rs))
        (fun _ => 0) (fun _ => 0)
        (bumps (fun _ => 0) (initializeSet n [] rs))
  | step (pm : ProgressMap) (seen backfilled inited : ℕ → ℕ) (r : ℚ)
      (rSet difficulty : ℕ) (now rback : ℚ) :
      FSReachable n pm seen backfilled inited →
      FSReachable n
        (recordFocusedAux n pm (fsGetNextCard n pm r rSet).index difficulty
          (fsGetNextCard n pm r rSet).addToSet now rback).1
        (bump seen (fsGetNextCard n pm r rSet).index)
        (bumpOpt backfilled
          (recordFocusedAux n pm (fsGetNextCard n pm r rSet).index difficulty
            (fsGetNextCard n pm r rSet).addToSet now rback).2)
        inited

/-- Set membership of an item in the progress store. -/
def inSetB (pm : ProgressMap) (k : ℕ) : Bool :=
  match lookupP pm k with
  | some p => p.inSet
  | none => false

/-! ### Theorems -/

/-! ### Helper lemmas for the interval functions -/

lemma improvedFactorBase_pos (d : ℕ) : 0 < improvedFactorBase d := by
  unfold improvedFactorBase
  split <;> norm_num

lemma improvedFactor_pos (d : ℕ) (s : ℚ) : 0 < improvedFactor d s := by
  unfold improvedFactor
  have h := improvedFactorBase_pos d
  dsimp only
  split
  · positivity
  · split
    · positivity
    · exact h

/-- C5 counterexample: the Anki variant's configured `maxInterval` is the
inherited 7-day default, yet `calculateNextInterval` only caps at a
hardcoded 365 days; at difficulty 5 with a 7-day current interval it returns
about 22.75 days, exceeding the configured cap. -/
theorem c5_cap_counterexample :
    ankiConfigMaxInterval = 604800000 ∧
    ankiCalculateNextInterval 5 604800000 (1 / 2) = 1965600000 ∧
    ¬ ankiCalculateNextInterval 5 604800000 (1 / 2) ≤ ankiConfigMaxInterval := by
  refine ⟨by norm_num [ankiConfigMaxInterval], ?_, ?_⟩ <;>
    norm_num [ankiCalculateNextInterval, ankiConfigMaxInterval]

/-- C5 (amended): the Improved and Aggressive variants return at most their
configured `maxInterval` (7 days) for all inputs; the Anki variant consults
only its hardcoded 365-day cap, which its result never exceeds, while its
configured `maxInterval` key (7 days) is not enforced. -/
theorem c5_caps_amended :
    (∀ (d : ℕ) (c s : ℚ),
        improvedCalculateNextInterval d c s ≤ improvedMaxInterval) ∧
    (∀ (d : ℕ) (c s : ℚ),
        aggressiveCalculateNextInterval d c s ≤ aggressiveConfigMaxInterval) ∧
    (∀ (d : ℕ) (c s : ℚ),
        ankiCalculateNextInterval d c s ≤ 365 * 24 * 60 * 60 * 1000) := by
  refine ⟨fun d c s => ?_, fun d c s => ?_, fun d c s => ?_⟩
  · unfold improvedCalculateNextInterval
    split
    · norm_num [improvedMaxInterval]
    · exact max_le (min_le_right _ _) (by norm_num [improvedMaxInterval])
  · unfold aggressiveCalculateNextInterval
    split
    · norm_num [aggressiveConfigMaxInterval]
    · exact le_trans (min_le_right _ _) (by norm_num [aggressiveConfigMaxInterval])
  · unfold ankiCalculateNextInterval
    split
    · norm_num
    · exact min_le_right _ _

/-- C6: for the Time-Interval (Improved) variant, with fixed difficulty at
least 2 and fixed success rate, `calculateNextInterval` is non-decreasing in
the current interval; difficulty 1 always returns the 30-second minimum. -/
theorem c6_interval_monotone :
    (∀ (d : ℕ), 2 ≤ d → ∀ (s c₁ c₂ : ℚ), c₁ ≤ c₂ →
        improvedCalculateNextInterval d c₁ s ≤ improvedCalculateNextInterval d c₂ s) ∧
    (∀ (c s : ℚ), improvedCalculateNextInterval 1 c s = 30 * 1000) := by
  constructor
  · intro d hd s c₁ c₂ hc
    unfold improvedCalculateNextInterval
    rw [if_neg (by omega), if_neg (by omega)]
    exact max_le_max (min_le_min
      (mul_le_mul_of_nonneg_right hc (improvedFactor_pos d s).le) le_rfl) le_rfl
  · intro c s
    simp [improvedCalculateNextInterval]

/-- Witness for C6 at concrete inputs. -/
theorem c6_interval_monotone_witness :
    improvedCalculateNextInterval 3 100000 (7 / 10) ≤
      improvedCalculateNextInterval 3 200000 (7 / 10) ∧
    improvedCalculateNextInterval 1 123456 (1 / 4) = 30 * 1000 :=
  ⟨c6_interval_monotone.1 3 (by norm_num) (7 / 10) 100000 200000 (by norm_num),
   c6_interval_monotone.2 123456 (1 / 4)⟩

/-- Band arithmetic helper: for a band `[mn, mx]` with `mn < mx`, the computed
offset `mn + floor (r * (mx - mn))` lies in `[mn, mx - 1]` for `r` in `[0,1)`,
and every value of that range is attained by some such `r`. -/
lemma band_offset_facts (mn mx : ℕ) (hlt : mn < mx) :
    (∀ r : ℚ, 0 ≤ r → r < 1 →
        (mn : ℤ) ≤ (mn : ℤ) + ⌊r * ((mx - mn : ℕ) : ℚ)⌋ ∧
        (mn : ℤ) + ⌊r * ((mx - mn : ℕ) : ℚ)⌋ ≤ (mx : ℤ) - 1) ∧
    (∀ v : ℕ, mn ≤ v → v ≤ mx - 1 → ∃ r : ℚ, 0 ≤ r ∧ r < 1 ∧
        (mn : ℤ) + ⌊r * ((mx - mn : ℕ) : ℚ)⌋ = (v : ℤ)) := by
  have hrange : (0 : ℚ) < ((mx - mn : ℕ) : ℚ) := by
    have : 0 < mx - mn := by omega
    exact_mod_cast this
  constructor
  · intro r hr0 hr1
    constructor
    · have : (0 : ℤ) ≤ ⌊r * ((mx - mn : ℕ) : ℚ)⌋ :=
        Int.floor_nonneg.2 (mul_nonneg hr0 hrange.le)
      omega
    · have hflt : ⌊r * ((mx - mn : ℕ) : ℚ)⌋ < ((mx - mn : ℕ) : ℤ) := by
        rw [Int.floor_lt]
        have : r * ((mx - mn : ℕ) : ℚ) < 1 * ((mx - mn : ℕ) : ℚ) :=
          mul_lt_mul_of_pos_right hr1 hrange
        simpa using this
      have hmxmn : ((mx - mn : ℕ) : ℤ) = (mx : ℤ) - (mn : ℤ) :=
        Nat.cast_sub hlt.le
      omega
  · intro v hv1 hv2
    refine ⟨((v : ℚ) - (mn : ℚ)) / ((mx - mn : ℕ) : ℚ), ?_, ?_, ?_⟩
    · apply div_nonneg _ hrange.le
      have : (mn : ℚ) ≤ (v : ℚ) := by exact_mod_cast hv1
      linarith
    · rw [div_lt_one hrange]
      have hv : (v : ℚ) < (mx : ℚ) := by
        have : v < mx := by omega
        exact_mod_cast this
      have hmxmn : ((mx - mn : ℕ) : ℚ) = (mx : ℚ) - (mn : ℚ) :=
        Nat.cast_sub hlt.le
      rw [hmxmn]
      linarith
    · rw [div_mul_cancel₀ _ hrange.ne']
      have : ((v : ℚ) - (mn : ℚ)) = (((v : ℤ) - (mn : ℤ) : ℤ) : ℚ) := by
        push_cast
        ring
      rw [this, Int.floor_intCast]
      omega

/-- C9 counterexample: for difficulty 1 (band `[1,3]`) the upper endpoint 3
is never attainable: the code draws `floor(random() * (max - min))`, so the
offset is at most `max - 1`.  Taken at session position 0. -/
theorem c9_band_counterexample :
    ¬ ∃ r : ℚ, 0 ≤ r ∧ r < 1 ∧ calculateTargetReviewPosition 0 1 r = 3 := by
  rintro ⟨r, hr0, hr1, hr⟩
  have h := (band_offset_facts 1 3 (by norm_num)).1 r hr0 hr1
  simp only [calculateTargetReviewPosition, difficultyIntervals] at hr
  omega

/-- C9 (amended): for every difficulty 1-5 with band `[mn, mx]`, the target
review position equals the session position plus an offset in
`[mn, mx - 1]` (the upper endpoint `mx` is not attainable), and every value
of `[mn, mx - 1]` is attainable by some random draw in `[0,1)`. -/
theorem c9_target_position_amended :
    ∀ (d mn mx : ℕ), difficultyIntervals d = some (mn, mx) → ∀ pos : ℕ,
      (∀ r : ℚ, 0 ≤ r → r < 1 →
          (pos : ℤ) + mn ≤ calculateTargetReviewPosition pos d r ∧
          calculateTargetReviewPosition pos d r ≤ (pos : ℤ) + mx - 1) ∧
      (∀ v : ℕ, mn ≤ v → v ≤ mx - 1 → ∃ r : ℚ, 0 ≤ r ∧ r < 1 ∧
          calculateTargetReviewPosition pos d r = (pos : ℤ) + v) := by
  intro d mn mx hband pos
  have hlt : mn < mx := by
    rcases d with _ | _ | _ | _ | _ | _ | d <;>
      simp [difficultyIntervals] at hband <;> omega
  have hfacts := band_offset_facts mn mx hlt
  have hcalc : ∀ r : ℚ, calculateTargetReviewPosition pos d r =
      (pos : ℤ) + ((mn : ℤ) + ⌊r * ((mx - mn : ℕ) : ℚ)⌋) := by
    intro r
    unfold calculateTargetReviewPosition
    rw [hband]
  constructor
  · intro r hr0 hr1
    have h := hfacts.1 r hr0 hr1
    rw [hcalc]
    omega
  · intro v hv1 hv2
    obtain ⟨r, hr0, hr1, hr⟩ := hfacts.2 v hv1 hv2
    exact ⟨r, hr0, hr1, by rw [hcalc, hr]⟩

/-- Witness for C9 (amended) at difficulty 2, band `[4,8]`, position 10:
bounds at `r = 1/2` and attainability of offset 7. -/
theorem c9_target_position_amended_witness :
    ((10 : ℤ) + 4 ≤ calculateTargetReviewPosition 10 2 (1 / 2) ∧
      calculateTargetReviewPosition 10 2 (1 / 2) ≤ (10 : ℤ) + 8 - 1) ∧
    (∃ r : ℚ, 0 ≤ r ∧ r < 1 ∧
      calculateTargetReviewPosition 10 2 r = (10 : ℤ) + 7) :=
  ⟨(c9_target_position_amended 2 4 8 rfl 10).1 (1 / 2) (by norm_num) (by norm_num),
   (c9_target_position_amended 2 4 8 rfl 10).2 7 (by norm_num) (by norm_num)⟩

/-- C10: every Position-Interval selection call increments the session
position counter by one before classifying items as due, so two consecutive
calls on an unchanged catalog and progress map can classify different items
as due.  Concretely: with one item whose `targetReviewPosition` is 2, the
call at counter 0 classifies nothing as due-now (the item is merely due
soon), while the immediately following call (counter 1) classifies it as
due-now. -/
theorem c10_selection_advances_position :
    (∀ (n : ℕ) (pm : ProgressMap) (st : SessionState) (seen r : ℕ),
        (masteryGetNextCard n pm st seen r).2 = seen + 1) ∧
    (masteryDueNow 1 [(0, { targetReviewPosition := some 2 })] (0 + 1) = [] ∧
     masteryDueNow 1 [(0, { targetReviewPosition := some 2 })] (0 + 1 + 1) =
       [{ char := some 0, index := 0, overdue := 0 }]) := by
  refine ⟨fun n pm st seen r => rfl, ?_, ?_⟩ <;> decide

/-! ### C1: empty-catalog behavior of every variant -/

/-- C1: with an empty catalog, every variant's `getNextCard` returns a
degenerate selection — the Bucket variant returns `null`, and every other
variant returns a selection whose item payload is `undefined` (reading
`characters[...]` out of bounds) — and, being total functions of their
inputs, none of them throws. -/
theorem c1_empty_catalog_degenerate :
    (∀ (pm : ProgressMap) (st : SessionState) (now today : ℚ),
        (improvedGetNextCard 0 pm st now today).char = none) ∧
    (∀ (pm : ProgressMap) (st : SessionState) (now today : ℚ),
        (ankiGetNextCard 0 pm st now today).char = none) ∧
    (∀ (pm : ProgressMap) (st : SessionState) (now today : ℚ),
        (aggressiveGetNextCard 0 pm st now today).char = none) ∧
    (∀ (pm : ProgressMap) (st : SessionState) (seen r : ℕ),
        ((masteryGetNextCard 0 pm st seen r).1).char = none) ∧
    (∀ (pm : ProgressMap) (pull : Bool) (rm rb rm2 : ℕ),
        bucketGetNextCard 0 pm pull rm rb rm2 = none) ∧
    (∀ (pm : ProgressMap) (r : ℚ) (rSet : ℕ),
        (fsGetNextCard 0 pm r rSet).char = none) := by
  have himp : ∀ (pm : ProgressMap) (st : SessionState) (now today : ℚ),
      (improvedGetNextCard 0 pm st now today).char = none := by
    intro pm st now today
    simp [improvedGetNextCard, improvedFailedCards, improvedDueCards,
      improvedNewCards, improvedOldest, charAt]
  refine ⟨himp, ?_, himp, ?_, ?_, ?_⟩
  · intro pm st now today
    simp [ankiGetNextCard, improvedNewCards, charAt]
  · intro pm st seen r
    simp [masteryGetNextCard, masteryDueNow, masteryDueSoon, masteryDueLater,
      masteryNewCards, charAt]
  · intro pm pull rm rb rm2
    simp [bucketGetNextCard, bucketStep1, bucketStep2, bucketStep3,
      bucketStep4, charAt]
  · intro pm r rSet
    simp [fsGetNextCard, fsCandidates, weightedRandomSelect, charAt,
      apply_ite (Selection.char)]

lemma reachIndex_cons (w : ℚ) (rest : List ℚ) (t : ℚ) :
    reachIndex (w :: rest) t =
      if t ≤ w then some 0 else (reachIndex rest (t - w)).map (· + 1) := by
  unfold reachIndex
  rw [List.length_cons, List.range_succ_eq_map, List.find?_cons]
  by_cases h : t ≤ w
  · simp [h]
  · have hpred : ∀ i : ℕ,
        ((fun i => decide (t ≤ ((w :: rest).take (i + 1)).sum)) ∘ Nat.succ) i =
        (fun i => decide (t - w ≤ (rest.take (i + 1)).sum)) i := by
      intro i
      simp only [Function.comp, Nat.succ_eq_add_one, List.take_succ_cons,
        List.sum_cons]
      exact decide_eq_decide.2 (by constructor <;> intro <;> linarith)
    have hd : decide (t ≤ (List.take (0 + 1) (w :: rest)).sum) = false := by
      simp only [List.take_succ_cons, List.take_zero, List.sum_cons, List.sum_nil,
        add_zero]
      exact decide_eq_false h
    rw [List.find?_map, funext hpred]
    rcases hfind : (List.range rest.length).find?
        (fun i => decide (t - w ≤ (rest.take (i + 1)).sum)) with _ | i <;>
      simp [hd, hfind, h]

/-- The cumulative-subtraction loop of `weightedRandomSelect` returns exactly
the item at the first index whose weight prefix-sum reaches the draw. -/
lemma cumSelect_eq_reachIndex {α : Type} :
    ∀ (items : List α) (ws : List ℚ) (t : ℚ), items.length = ws.length →
      cumSelect (items.zip ws) t = (reachIndex ws t).bind (fun i => items.get? i) := by
  intro items
  induction items with
  | nil =>
    intro ws t hlen
    have : ws = [] := by
      cases ws
      · rfl
      · simp at hlen
    subst this
    rfl
  | cons a rest ih =>
    intro ws t hlen
    cases ws with
    | nil => simp at hlen
    | cons w wrest =>
      rw [List.zip_cons_cons, reachIndex_cons]
      simp only [cumSelect]
      by_cases h : t ≤ w
      · rw [if_pos (by linarith), if_pos h]
        rfl
      · rw [if_neg (by intro hc; exact h (by linarith)), if_neg h]
        rw [ih wrest (t - w) (by simpa using hlen)]
        rcases reachIndex wrest (t - w) with _ | i <;> rfl

lemma wrsWeights_ge (items : List Cand) :
    ∀ w ∈ wrsWeights items, (1 : ℚ) / 10 ≤ w := by
  intro w hw
  unfold wrsWeights at hw
  obtain ⟨it, _, rfl⟩ := List.mem_map.1 hw
  exact le_max_right _ _

lemma wrsWeights_sum_pos (items : List Cand) (hne : items ≠ []) :
    0 < (wrsWeights items).sum := by
  have hlen : wrsWeights items ≠ [] := by
    unfold wrsWeights
    simpa using hne
  cases hws : wrsWeights items with
  | nil => exact absurd hws hlen
  | cons w rest =>
    have hw : (1 : ℚ) / 10 ≤ w := wrsWeights_ge items w (by rw [hws]; exact List.mem_cons_self _ _)
    have hrest : 0 ≤ rest.sum := List.sum_nonneg (by
      intro x hx
      have := wrsWeights_ge items x (by rw [hws]; exact List.mem_cons_of_mem _ hx)
      linarith)
    rw [List.sum_cons]
    linarith

lemma reachIndex_total (ws : List ℚ) (t : ℚ) (hne : ws ≠ []) (hle : t ≤ ws.sum) :
    ∃ i, reachIndex ws t = some i ∧ i < ws.length := by
  have hlenpos : 0 < ws.length := List.length_pos.2 hne
  have hsat : ∃ i ∈ List.range ws.length,
      (fun i => decide (t ≤ (ws.take (i + 1)).sum)) i = true := by
    refine ⟨ws.length - 1, List.mem_range.2 (by omega), ?_⟩
    have heq : ws.length - 1 + 1 = ws.length := by omega
    show decide (t ≤ (List.take (ws.length - 1 + 1) ws).sum) = true
    rw [heq, List.take_length]
    exact decide_eq_true hle
  have hsome : (reachIndex ws t).isSome = true := by
    unfold reachIndex
    exact List.find?_isSome.2 hsat
  obtain ⟨i, hi⟩ := Option.isSome_iff_exists.1 hsome
  refine ⟨i, hi, ?_⟩
  have := List.mem_of_find?_eq_some hi
  exact List.mem_range.1 this

/-- C8 counterexample: with candidate scores `[0, 5]` the code's offset is 0
(the `minScore < 0` test fails at 0), while the claimed formula
`max(0, -min + 1)` yields 1; consequently the first candidate's weight is
the 0.1 floor rather than the claimed `max(0 + 1, 0.1) = 1`. -/
theorem c8_offset_counterexample :
    wrsOffset [0, 5] = 0 ∧ claimedOffset [0, 5] = 1 ∧
    wrsOffset [0, 5] ≠ claimedOffset [0, 5] ∧
    wrsWeights [(0, 0), (1, 5)] = [1 / 10, 5] ∧
    max ((0 : ℚ) + claimedOffset [0, 5]) (1 / 10) = 1 := by
  refine ⟨?_, ?_, ?_, ?_, ?_⟩ <;>
    norm_num [wrsOffset, claimedOffset, minScoreOf, wrsWeights]

/-- C8 (amended): for a candidate list of length at least 2, the positivity
offset is `-min(scores) + 1` when the minimum score is negative and 0
otherwise; each candidate's weight is `max(score + offset, 0.1)`; and for a
draw `r` in `[0,1)` the selected candidate is the one at the first index
whose weight prefix-sum reaches `r × totalWeight`.  A single-candidate list
is returned directly. -/
theorem c8_weighted_sampling_amended :
    (∀ (items : List Cand), 2 ≤ items.length →
      (wrsOffset (items.map (·.2)) =
        if minScoreOf (items.map (·.2)) < 0 then -(minScoreOf (items.map (·.2))) + 1
        else 0) ∧
      (wrsWeights items =
        items.map (fun it => max (it.2 + wrsOffset (items.map (·.2))) (1 / 10))) ∧
      (∀ r : ℚ, 0 ≤ r → r < 1 → ∃ idx, idx < items.length ∧
        reachIndex (wrsWeights items) (r * (wrsWeights items).sum) = some idx ∧
        weightedRandomSelect items r = items.get? idx)) ∧
    (∀ (x : Cand) (r : ℚ), weightedRandomSelect [x] r = some x) := by
  constructor
  · intro items hlen
    refine ⟨?_, rfl, ?_⟩
    · simp only [wrsOffset]
      by_cases hmin : minScoreOf (items.map (·.2)) < 0
      · rw [if_pos hmin, if_pos hmin, abs_of_neg hmin]
      · rw [if_neg hmin, if_neg hmin]
    · intro r hr0 hr1
      obtain ⟨x, y, rest, rfl⟩ : ∃ x y rest, items = x :: y :: rest := by
        rcases items with _ | ⟨x, _ | ⟨y, rest⟩⟩
        · simp at hlen
        · simp at hlen
        · exact ⟨_, _, _, rfl⟩
      set allItems := x :: y :: rest with hall
      have hsumpos : 0 < (wrsWeights allItems).sum :=
        wrsWeights_sum_pos allItems (by simp [hall])
      have hwlen : (wrsWeights allItems).length = allItems.length := by
        unfold wrsWeights
        simp
      have htle : r * (wrsWeights allItems).sum ≤ (wrsWeights allItems).sum := by
        nlinarith
      obtain ⟨idx, hidx, hlt⟩ := reachIndex_total (wrsWeights allItems)
        (r * (wrsWeights allItems).sum)
        (by simp [wrsWeights, hall]) htle
      refine ⟨idx, by omega, hidx, ?_⟩
      have hcum := cumSelect_eq_reachIndex allItems (wrsWeights allItems)
        (r * (wrsWeights allItems).sum) hwlen.symm
      rw [hidx] at hcum
      simp only [Option.some_bind] at hcum
      have hget : ∃ a, allItems.get? idx = some a :=
        Option.isSome_iff_exists.1 (by rw [List.get?_eq_get (by omega)]; rfl)
      obtain ⟨a, ha⟩ := hget
      show (match cumSelect (allItems.zip (wrsWeights allItems))
          (r * (wrsWeights allItems).sum) with
        | some a => some a
        | none => some (allItems.getLast (List.cons_ne_nil _ _))) = allItems.get? idx
      rw [hcum, ha]
  · intro x r
    rfl

/-- Witness for C8 (amended) on the two-candidate list `[(0,3),(1,-2)]` with
draw `1/2`, plus the singleton shortcut at `(7,1)`. -/
theorem c8_weighted_sampling_amended_witness :
    (∃ idx, idx < ([((0 : ℕ), (3 : ℚ)), (1, -2)] : List Cand).length ∧
      reachIndex (wrsWeights [((0 : ℕ), (3 : ℚ)), (1, -2)])
        ((1 / 2) * (wrsWeights [((0 : ℕ), (3 : ℚ)), (1, -2)]).sum) = some idx ∧
      weightedRandomSelect [((0 : ℕ), (3 : ℚ)), (1, -2)] (1 / 2) =
        ([((0 : ℕ), (3 : ℚ)), (1, -2)] : List Cand).get? idx) ∧
    weightedRandomSelect [((7 : ℕ), (1 : ℚ))] (1 / 3) = some (7, 1) :=
  ⟨((c8_weighted_sampling_amended.1 [((0 : ℕ), (3 : ℚ)), (1, -2)]
      (by decide)).2.2 (1 / 2) (by norm_num) (by norm_num)),
   c8_weighted_sampling_amended.2 (7, 1) (1 / 3)⟩

/-- C7 counterexample: an item in `recentFailedCards` whose `nextReview` lies
in the future is still a first-priority (failed) candidate — and is in fact
selected — although the claimed candidate set (failed AND due) is empty; and
at 2000 minutes since last seen with `lastDifficulty = 1`, the code's
priority is 0 while the claimed formula gives 100. -/
theorem c7_failed_priority_counterexample :
    ((improvedFailedCards 1 [(0, { nextReview := 1000000, lastDifficulty := some 3 })]
        { recentFailedCards := [0] } 0).map (·.index) = [0]) ∧
    (claimedFailedIndices 1 [(0, { nextReview := 1000000, lastDifficulty := some 3 })]
        { recentFailedCards := [0] } 0 = []) ∧
    ((improvedGetNextCard 1 [(0, { nextReview := 1000000, lastDifficulty := some 3 })]
        { recentFailedCards := [0] } 0 0).index = 0) ∧
    (calculateFailedCardPriority { lastSeen := 0, lastDifficulty := some 1 }
        120000000 = 0) ∧
    (claimedFailedScore { lastSeen := 0, lastDifficulty := some 1 }
        120000000 = 100) := by
  refine ⟨by decide, by decide, ?_, ?_, ?_⟩
  · simp [improvedGetNextCard, improvedFailedCards, improvedDueCards,
      improvedNewCards, lookupP, charAt, calculateFailedCardPriority,
      List.filterMap, List.find?]
  · norm_num [calculateFailedCardPriority]
  · norm_num [claimedFailedScore]

lemma calculateFailedCardPriority_eq_amended (p : Progress) (now : ℚ) :
    calculateFailedCardPriority p now = amendedFailedScore p now := by
  unfold calculateFailedCardPriority amendedFailedScore
  by_cases h : p.lastDifficulty = some 1 <;> simp [h]

lemma byPriorityDesc_head_max (l : List RatedCard) (c : RatedCard)
    (rest : List RatedCard) (h : l.mergeSort byPriorityDesc = c :: rest) :
    c ∈ l ∧ ∀ x ∈ l, x.priority ≤ c.priority := by
  have hperm : List.Perm (l.mergeSort byPriorityDesc) l :=
    List.mergeSort_perm l byPriorityDesc
  have hsorted := @List.sorted_mergeSort _ byPriorityDesc
    (fun a b d h1 h2 => by
      simp only [byPriorityDesc, decide_eq_true_eq] at *
      exact le_trans h2 h1)
    (fun a b => by
      simp only [byPriorityDesc, Bool.or_eq_true, decide_eq_true_eq]
      exact le_total b.priority a.priority) l
  rw [h] at hperm hsorted
  constructor
  · exact hperm.subset (List.mem_cons_self _ _)
  · intro x hx
    have hx' : x ∈ c :: rest := hperm.mem_iff.2 hx
    rcases List.mem_cons.1 hx' with rfl | hx''
    · exact le_rfl
    · have := (List.pairwise_cons.1 hsorted).1 x hx''
      simpa [byPriorityDesc] using this

lemma filterMap_map_index_eq_filter (f : ℕ → Option RatedCard) (g : ℕ → Bool)
    (hfg : ∀ i, (f i).map (·.index) = if g i then some i else none) :
    ∀ l : List ℕ, (l.filterMap f).map (·.index) = l.filter g := by
  intro l
  induction l with
  | nil => rfl
  | cons a l ih =>
    rw [List.filterMap_cons, List.filter_cons]
    have h := hfg a
    rcases hfa : f a with _ | c <;> rw [hfa] at h
    · rcases hga : g a <;> rw [hga] at h
      · simpa [hga] using ih
      · simp at h
    · rcases hga : g a <;> rw [hga] at h
      · simp at h
      · simp at h
        simp [hga, h, ih]

lemma improvedFailedCards_mem (n : ℕ) (pm : ProgressMap) (st : SessionState)
    (now : ℚ) (c : RatedCard) (hc : c ∈ improvedFailedCards n pm st now) :
    ∃ p, lookupP pm c.index = some p ∧
      st.recentFailedCards.contains c.index = true ∧
      c.priority = calculateFailedCardPriority p now := by
  unfold improvedFailedCards at hc
  obtain ⟨i, _, hf⟩ := List.mem_filterMap.1 hc
  rcases hp : lookupP pm i with _ | p <;> rw [hp] at hf
  · simp at hf
  · simp at hf
    obtain ⟨hmem, hrec⟩ := hf
    subst hrec
    exact ⟨p, hp, by simpa using hmem, rfl⟩

/-- C7 (amended): the Improved variant's first-priority candidate set is
exactly the recorded items in `recentFailedCards` — due or not — each with
priority `max(1000 − minutesSinceLastSeen + (100 if lastDifficulty==1), 0)`;
whenever this set is non-empty, `getNextCard` returns one of its members of
maximal priority. -/
theorem c7_failed_priority_amended :
    ∀ (n : ℕ) (pm : ProgressMap) (st : SessionState) (now : ℚ),
      ((improvedFailedCards n pm st now).map (·.index) =
        (List.range n).filter
          (fun i => (lookupP pm i).isSome && st.recentFailedCards.contains i)) ∧
      (∀ c ∈ improvedFailedCards n pm st now, ∀ p, lookupP pm c.index = some p →
        c.priority = amendedFailedScore p now) ∧
      (improvedFailedCards n pm st now ≠ [] → ∀ todayStart : ℚ,
        improvedGetNextCard n pm st now todayStart ∈ improvedFailedCards n pm st now ∧
        ∀ c ∈ improvedFailedCards n pm st now,
          c.priority ≤ (improvedGetNextCard n pm st now todayStart).priority) := by
  intro n pm st now
  refine ⟨?_, ?_, ?_⟩
  · unfold improvedFailedCards
    apply filterMap_map_index_eq_filter
    intro i
    rcases hp : lookupP pm i with _ | p <;>
      by_cases hcon : st.recentFailedCards.contains i <;>
      simp [hp, hcon]
  · intro c hc p hp
    obtain ⟨q, hq, _, hpr⟩ := improvedFailedCards_mem n pm st now c hc
    rw [hp] at hq
    obtain rfl := Option.some_injective _ hq
    rw [hpr, calculateFailedCardPriority_eq_amended]
  · intro hne todayStart
    rcases hms : (improvedFailedCards n pm st now).mergeSort byPriorityDesc with
      _ | ⟨c, rest⟩
    · exfalso
      have hperm := List.mergeSort_perm (improvedFailedCards n pm st now) byPriorityDesc
      rw [hms] at hperm
      exact hne hperm.symm.eq_nil
    · have hres : improvedGetNextCard n pm st now todayStart = c := by
        unfold improvedGetNextCard
        rw [hms]
      obtain ⟨hmem, hmax⟩ :=
        byPriorityDesc_head_max (improvedFailedCards n pm st now) c rest hms
      rw [hres]
      exact ⟨hmem, hmax⟩

/-- Witness for C7 (amended): on the counterexample state (one item, in the
failed set, not due) the selection returns a maximal-priority failed card. -/
theorem c7_failed_priority_amended_witness :
    improvedGetNextCard 1 [(0, { nextReview := 1000000, lastDifficulty := some 3 })]
        { recentFailedCards := [0] } 0 0 ∈
      improvedFailedCards 1 [(0, { nextReview := 1000000, lastDifficulty := some 3 })]
        { recentFailedCards := [0] } 0 ∧
    calculateFailedCardPriority { nextReview := 1000000, lastDifficulty := some 3 } 0 =
      amendedFailedScore { nextReview := 1000000, lastDifficulty := some 3 } 0 :=
  ⟨((c7_failed_priority_amended 1
      [(0, { nextReview := 1000000, lastDifficulty := some 3 })]
      { recentFailedCards := [0] } 0).2.2 (by decide) 0).1,
   calculateFailedCardPriority_eq_amended _ _⟩

lemma activeBucket_length_eq_countP (pm : ProgressMap) :
    (activeBucket pm).length = pm.countP activeP := by
  unfold activeBucket activeP isActive
  rw [List.length_map, List.countP_eq_length_filter]

lemma lookupP_cons (e : ℕ × Progress) (pm : ProgressMap) (i : ℕ) :
    lookupP (e :: pm) i = if e.1 = i then some e.2 else lookupP pm i := by
  unfold lookupP
  by_cases h : e.1 = i
  · rw [List.find?_cons_of_pos _ (by simpa using h), if_pos h]
    rfl
  · rw [List.find?_cons_of_neg _ (by simpa using h), if_neg h]

lemma lookupP_eq_none_iff (pm : ProgressMap) (i : ℕ) :
    lookupP pm i = none ↔ i ∉ keysOf pm := by
  induction pm with
  | nil => simp [lookupP, keysOf]
  | cons e rest ih =>
    rw [lookupP_cons]
    by_cases h : e.1 = i
    · simp [keysOf, h]
    · have h' : ¬ i = e.1 := fun hc => h hc.symm
      simp [keysOf, h, h', ih]

lemma lookupP_mem (pm : ProgressMap) (i : ℕ) (q : Progress)
    (h : lookupP pm i = some q) : (i, q) ∈ pm := by
  induction pm with
  | nil => simp [lookupP] at h
  | cons e rest ih =>
    rw [lookupP_cons] at h
    by_cases he : e.1 = i
    · rw [if_pos he] at h
      obtain rfl := Option.some_injective _ h
      have hpair : e = (i, e.2) := by
        rw [← he]
      rw [← hpair]
      exact List.mem_cons_self _ _
    · rw [if_neg he] at h
      exact List.mem_cons_of_mem _ (ih h)

lemma mem_lookupP (pm : ProgressMap) (i : ℕ) (q : Progress)
    (hnd : (keysOf pm).Nodup) (h : (i, q) ∈ pm) : lookupP pm i = some q := by
  induction pm with
  | nil => simp at h
  | cons e rest ih =>
    rw [lookupP_cons]
    rcases List.mem_cons.1 h with rfl | hmem
    · rw [if_pos rfl]
    · have hnd' : (keysOf rest).Nodup := (List.nodup_cons.1 hnd).2
      have hne : e.1 ≠ i := by
        intro he
        apply (List.nodup_cons.1 hnd).1
        show e.1 ∈ keysOf rest
        rw [he]
        exact List.mem_map.2 ⟨(i, q), hmem, rfl⟩
      rw [if_neg hne]
      exact ih hnd' hmem

lemma mem_setP (pm : ProgressMap) (i : ℕ) (p : Progress) :
    ∀ e ∈ setP pm i p, e = (i, p) ∨ e ∈ pm := by
  unfold setP
  split
  · intro e he
    obtain ⟨a, ha, rfl⟩ := List.mem_map.1 he
    by_cases h : a.1 = i
    · left
      rw [if_pos h]
    · right
      rw [if_neg h]
      exact ha
  · intro e he
    rcases List.mem_append.1 he with h | h
    · right
      exact h
    · left
      simpa using h

lemma mapUpdate_eq_of_not_mem (pm : ProgressMap) (i : ℕ) (p : Progress)
    (h : i ∉ keysOf pm) :
    pm.map (fun e => if e.1 = i then (i, p) else e) = pm := by
  apply (List.map_congr_left ?_).trans (List.map_id pm)
  intro a ha
  have hne : a.1 ≠ i := by
    intro hc
    apply h
    rw [← hc]
    exact List.mem_map.2 ⟨a, ha, rfl⟩
  simp [hne]

lemma keysOf_setP_update (pm : ProgressMap) (i : ℕ) (p : Progress)
    (h : (lookupP pm i).isSome) : keysOf (setP pm i p) = keysOf pm := by
  unfold setP
  rw [if_pos h]
  unfold keysOf
  rw [List.map_map]
  apply List.map_congr_left
  intro e _
  by_cases he : e.1 = i <;> simp [he]

lemma keysOf_setP_new (pm : ProgressMap) (i : ℕ) (p : Progress)
    (h : lookupP pm i = none) : keysOf (setP pm i p) = keysOf pm ++ [i] := by
  unfold setP
  rw [if_neg (by simp [h]), keysOf, List.map_append]
  rfl

lemma lookupP_mapUpdate_self (pm : ProgressMap) (i : ℕ) (p q : Progress)
    (h : lookupP pm i = some q) :
    lookupP (pm.map (fun e => if e.1 = i then (i, p) else e)) i = some p := by
  induction pm with
  | nil => simp [lookupP] at h
  | cons e rest ih =>
    rw [lookupP_cons] at h
    rw [List.map_cons, lookupP_cons]
    by_cases he : e.1 = i
    · rw [if_pos he]
      simp
    · rw [if_neg he] at h
      rw [if_neg he]
      simp only [he, if_false, ite_false]
      exact ih h

lemma lookupP_mapUpdate_ne (pm : ProgressMap) (i j : ℕ) (p : Progress)
    (hij : j ≠ i) :
    lookupP (pm.map (fun e => if e.1 = i then (i, p) else e)) j = lookupP pm j := by
  induction pm with
  | nil => rfl
  | cons e rest ih =>
    rw [List.map_cons, lookupP_cons, lookupP_cons]
    by_cases he : e.1 = i
    · rw [if_pos he]
      have h1 : ¬((i, p).1 = j) := fun hc => hij hc.symm
      have h2 : ¬(e.1 = j) := by
        rw [he]
        exact fun hc => hij hc.symm
      rw [if_neg h1, if_neg h2]
      exact ih
    · rw [if_neg he]
      by_cases hej : e.1 = j
      · rw [if_pos hej, if_pos hej]
      · rw [if_neg hej, if_neg hej]
        exact ih

lemma lookupP_append_single_self (pm : ProgressMap) (i : ℕ) (p : Progress)
    (h : lookupP pm i = none) : lookupP (pm ++ [(i, p)]) i = some p := by
  have hf : pm.find? (fun e => e.1 == i) = none := by
    unfold lookupP at h
    exact Option.map_eq_none'.1 h
  unfold lookupP
  rw [List.find?_append, hf, Option.none_or,
    List.find?_cons_of_pos _ (by simp)]
  rfl

lemma lookupP_append_single_ne (pm : ProgressMap) (i j : ℕ) (p : Progress)
    (hij : j ≠ i) : lookupP (pm ++ [(i, p)]) j = lookupP pm j := by
  have hsingle : List.find? (fun e => e.1 == j) [(i, p)] = none := by
    rw [List.find?_cons_of_neg _ (by simpa using Ne.symm hij)]
    rfl
  unfold lookupP
  rw [List.find?_append, hsingle, Option.or_none]

lemma lookupP_setP_self (pm : ProgressMap) (i : ℕ) (p : Progress) :
    lookupP (setP pm i p) i = some p := by
  unfold setP
  split
  · next h =>
    obtain ⟨q, hq⟩ := Option.isSome_iff_exists.1 h
    exact lookupP_mapUpdate_self pm i p q hq
  · next h =>
    have hnone : lookupP pm i = none := by
      rcases hl : lookupP pm i with _ | q
      · rfl
      · exact absurd (by rw [hl]; rfl) h
    exact lookupP_append_single_self pm i p hnone

lemma lookupP_setP_ne (pm : ProgressMap) (i j : ℕ) (p : Progress)
    (hij : j ≠ i) : lookupP (setP pm i p) j = lookupP pm j := by
  unfold setP
  split
  · exact lookupP_mapUpdate_ne pm i j p hij
  · exact lookupP_append_single_ne pm i j p hij

lemma countP_setP_new (pm : ProgressMap) (i : ℕ) (p : Progress)
    (h : lookupP pm i = none) (g : ℕ × Progress → Bool) :
    (setP pm i p).countP g = pm.countP g + (if g (i, p) then 1 else 0) := by
  unfold setP
  rw [if_neg (by simp [h]), List.countP_append]
  by_cases hg : g (i, p) <;> simp [List.countP, List.countP.go, hg]

lemma countP_mapUpdate (pm : ProgressMap) (i : ℕ) (p q : Progress)
    (hnd : (keysOf pm).Nodup) (h : lookupP pm i = some q)
    (g : ℕ × Progress → Bool) :
    (pm.map (fun e => if e.1 = i then (i, p) else e)).countP g +
        (if g (i, q) then 1 else 0) =
      pm.countP g + (if g (i, p) then 1 else 0) := by
  induction pm with
  | nil => simp [lookupP] at h
  | cons e rest ih =>
    rw [lookupP_cons] at h
    rw [List.map_cons, List.countP_cons, List.countP_cons]
    by_cases he : e.1 = i
    · rw [if_pos he] at h
      obtain rfl := Option.some_injective _ h
      rw [if_pos he]
      have hnotmem : i ∉ keysOf rest := by
        have hh := (List.nodup_cons.1 (show (e.1 :: keysOf rest).Nodup from hnd)).1
        rw [he] at hh
        exact hh
      rw [mapUpdate_eq_of_not_mem rest i p hnotmem]
      have hpair : e = (i, e.2) := by rw [← he]
      rw [← hpair]
      omega
    · rw [if_neg he] at h
      rw [if_neg he]
      have := ih (List.nodup_cons.1
        (show (e.1 :: keysOf rest).Nodup from hnd)).2 h
      omega

lemma countP_setP_update (pm : ProgressMap) (i : ℕ) (p q : Progress)
    (hnd : (keysOf pm).Nodup) (h : lookupP pm i = some q)
    (g : ℕ × Progress → Bool) :
    (setP pm i p).countP g + (if g (i, q) then 1 else 0) =
      pm.countP g + (if g (i, p) then 1 else 0) := by
  unfold setP
  rw [if_pos (by simp [h])]
  exact countP_mapUpdate pm i p q hnd h g

lemma nodup_setP (pm : ProgressMap) (i : ℕ) (p : Progress)
    (hnd : (keysOf pm).Nodup) : (keysOf (setP pm i p)).Nodup := by
  rcases hl : lookupP pm i with _ | q
  · rw [keysOf_setP_new pm i p hl]
    rw [List.nodup_append]
    exact ⟨hnd, List.nodup_singleton i,
      fun a ha hb => ((lookupP_eq_none_iff pm i).1 hl)
        (by simpa using (List.mem_singleton.1 hb) ▸ ha)⟩
  · rw [keysOf_setP_update pm i p (by rw [hl]; rfl)]
    exact hnd

/-! ### C3: the bucket-capacity invariant -/

lemma getD_mod_mem (l : List ℕ) (hl : l ≠ []) (k : ℕ) :
    l.getD (k % l.length) 0 ∈ l := by
  have hpos : 0 < l.length := List.length_pos.2 hl
  have hlt : k % l.length < l.length := Nat.mod_lt _ hpos
  rw [List.getD_eq_getElem l 0 hlt]
  exact List.getElem_mem hlt

lemma mem_activeBucket_iff (pm : ProgressMap) (j : ℕ) :
    j ∈ activeBucket pm ↔ ∃ q, (j, q) ∈ pm ∧ isActive q = true := by
  unfold activeBucket
  constructor
  · intro hj
    obtain ⟨e, he, rfl⟩ := List.mem_map.1 hj
    obtain ⟨hmem, hf⟩ := List.mem_filter.1 he
    refine ⟨e.2, ?_, by simpa [isActive] using hf⟩
    simpa using hmem
  · rintro ⟨q, hmem, hf⟩
    exact List.mem_map.2 ⟨(j, q),
      List.mem_filter.2 ⟨hmem, by simpa [isActive] using hf⟩, rfl⟩

lemma mem_getMasteredCards_iff (pm : ProgressMap) (j : ℕ) :
    j ∈ getMasteredCards pm ↔ ∃ q, (j, q) ∈ pm ∧ isCardMastered q = true := by
  unfold getMasteredCards
  constructor
  · intro hj
    obtain ⟨e, he, rfl⟩ := List.mem_map.1 hj
    obtain ⟨hmem, hf⟩ := List.mem_filter.1 he
    exact ⟨e.2, by simpa using hmem, hf⟩
  · rintro ⟨q, hmem, hf⟩
    exact List.mem_map.2 ⟨(j, q), List.mem_filter.2 ⟨hmem, hf⟩, rfl⟩

lemma entryInv_new (d : ℕ) (b : Bool) (now : ℚ) :
    EntryInv (newBucketProgress d b now) := by
  unfold EntryInv newBucketProgress isCardMastered
  by_cases hd : 4 ≤ d <;> simp [hd]

lemma entryInv_mastered (q : Progress) (hq : EntryInv q)
    (hm : q.masteredAt ≠ none) : isCardMastered q = true := by
  obtain ⟨hB, hB2, _⟩ := hq
  obtain ⟨_, hwu⟩ := hB (hB2 hm)
  unfold isCardMastered
  simp [hB2 hm, hwu]

lemma updateBucket_trigger (q : Progress) (d : ℕ) (now : ℚ) (hd : 4 ≤ d)
    (ht : q.consecutiveGood + 1 = 3) (hm : q.masteredAt = none) :
    (updateBucketProgress q d now).consecutiveGood = 3 ∧
    (updateBucketProgress q d now).masteredAt = some now ∧
    (updateBucketProgress q d now).wasUnmastered = false ∧
    (updateBucketProgress q d now).inBucket = false := by
  unfold updateBucketProgress
  simp [hd, ht, hm]

lemma updateBucket_good (q : Progress) (d : ℕ) (now : ℚ) (hd : 4 ≤ d)
    (hnt : ¬(q.consecutiveGood + 1 = 3 ∧ q.masteredAt = none)) :
    (updateBucketProgress q d now).consecutiveGood = q.consecutiveGood + 1 ∧
    (updateBucketProgress q d now).masteredAt = q.masteredAt ∧
    (updateBucketProgress q d now).wasUnmastered = q.wasUnmastered ∧
    (updateBucketProgress q d now).inBucket = q.inBucket := by
  unfold updateBucketProgress
  simp only [hd, if_true, ite_true, if_neg hnt]
  simp

lemma updateBucket_unmaster (q : Progress) (d : ℕ) (now : ℚ) (hd : ¬4 ≤ d)
    (hm : q.masteredAt ≠ none) :
    (updateBucketProgress q d now).consecutiveGood = 0 ∧
    (updateBucketProgress q d now).masteredAt = none ∧
    (updateBucketProgress q d now).wasUnmastered = true ∧
    (updateBucketProgress q d now).inBucket = true := by
  unfold updateBucketProgress
  simp [hd, hm]

lemma updateBucket_reset (q : Progress) (d : ℕ) (now : ℚ) (hd : ¬4 ≤ d)
    (hm : q.masteredAt = none) :
    (updateBucketProgress q d now).consecutiveGood = 0 ∧
    (updateBucketProgress q d now).masteredAt = none ∧
    (updateBucketProgress q d now).wasUnmastered = q.wasUnmastered ∧
    (updateBucketProgress q d now).inBucket = q.inBucket := by
  unfold updateBucketProgress
  simp [hd, hm]

lemma isCardMastered_eq (p : Progress) :
    isCardMastered p = (decide (3 ≤ p.consecutiveGood) && !p.wasUnmastered) := rfl

lemma entryInv_update (q : Progress) (d : ℕ) (now : ℚ) (hq : EntryInv q) :
    EntryInv (updateBucketProgress q d now) := by
  obtain ⟨hB, hB2, hD⟩ := hq
  by_cases hd : 4 ≤ d
  · by_cases ht : q.consecutiveGood + 1 = 3 ∧ q.masteredAt = none
    · obtain ⟨hcg, hma, hwu, hib⟩ := updateBucket_trigger q d now hd ht.1 ht.2
      refine ⟨fun _ => ⟨by simp [hma], hwu⟩, fun _ => by omega, fun _ => hib⟩
    · obtain ⟨hcg, hma, hwu, hib⟩ := updateBucket_good q d now hd ht
      have hkey : 3 ≤ q.consecutiveGood + 1 → 3 ≤ q.consecutiveGood := by
        intro h3
        rcases Nat.lt_or_ge q.consecutiveGood 3 with hlt | hge
        · have hcg2 : q.consecutiveGood + 1 = 3 := by omega
          have hmne : q.masteredAt ≠ none := fun hc => ht ⟨hcg2, hc⟩
          exact hB2 hmne
        · exact hge
      refine ⟨?_, ?_, ?_⟩
      · intro h3
        rw [hcg] at h3
        have := hB (hkey h3)
        rw [hma, hwu]
        exact this
      · intro hmne
        rw [hma] at hmne
        rw [hcg]
        have := hB2 hmne
        omega
      · intro hmast
        rw [isCardMastered_eq, hcg, hwu] at hmast
        simp only [Bool.and_eq_true, decide_eq_true_eq, Bool.not_eq_true'] at hmast
        have h3 := hkey hmast.1
        have : isCardMastered q = true := by
          rw [isCardMastered_eq]
          simp [h3, hmast.2]
        rw [hib]
        exact hD this
  · by_cases hm : q.masteredAt = none
    · obtain ⟨hcg, hma, hwu, hib⟩ := updateBucket_reset q d now hd hm
      refine ⟨fun h3 => by omega, fun hmne => by rw [hma] at hmne; simp at hmne,
        fun hmast => ?_⟩
      rw [isCardMastered_eq, hcg] at hmast
      simp at hmast
    · obtain ⟨hcg, hma, hwu, hib⟩ := updateBucket_unmaster q d now hd hm
      refine ⟨fun h3 => by omega, fun hmne => by rw [hma] at hmne; simp at hmne,
        fun hmast => ?_⟩
      rw [isCardMastered_eq, hcg] at hmast
      simp at hmast

lemma isActive_update (q : Progress) (d : ℕ) (now : ℚ) (hq : EntryInv q)
    (h : isActive (updateBucketProgress q d now) = true) :
    isActive q = true ∨ q.masteredAt ≠ none := by
  obtain ⟨hB, hB2, hD⟩ := hq
  unfold isActive at h
  simp only [Bool.and_eq_true, Bool.not_eq_true'] at h
  obtain ⟨hib', hnm'⟩ := h
  by_cases hd : 4 ≤ d
  · by_cases ht : q.consecutiveGood + 1 = 3 ∧ q.masteredAt = none
    · obtain ⟨_, _, _, hib⟩ := updateBucket_trigger q d now hd ht.1 ht.2
      rw [hib] at hib'
      simp at hib'
    · obtain ⟨hcg, hma, hwu, hib⟩ := updateBucket_good q d now hd ht
      left
      unfold isActive
      simp only [Bool.and_eq_true, Bool.not_eq_true']
      refine ⟨by rw [hib] at hib'; exact hib', ?_⟩
      rw [isCardMastered_eq, hcg, hwu] at hnm'
      rw [isCardMastered_eq]
      simp only [Bool.and_eq_false_iff] at hnm' ⊢
      rcases hnm' with hc | hw
      · left
        simp only [decide_eq_false_iff_not] at hc ⊢
        omega
      · right
        exact hw
  · by_cases hm : q.masteredAt = none
    · obtain ⟨hcg, hma, hwu, hib⟩ := updateBucket_reset q d now hd hm
      left
      unfold isActive
      simp only [Bool.and_eq_true, Bool.not_eq_true']
      refine ⟨by rw [hib] at hib'; exact hib', ?_⟩
      rw [isCardMastered_eq]
      simp only [Bool.and_eq_false_iff]
      by_cases h3 : 3 ≤ q.consecutiveGood
      · have hmne := (hB h3).1
        exact absurd hm hmne
      · left
        simpa using h3
    · right
      exact hm

lemma bucketStep1_some (n : ℕ) (pm : ProgressMap) (pull : Bool) (rm : ℕ)
    (sel : Selection) (h : bucketStep1 n pm pull rm = some sel) :
    (activeBucket pm).length < bucketSize ∧
    ((sel.index ∈ getMasteredCards pm ∧ sel.addToBucket = false) ∨
     (lookupP pm sel.index = none ∧ sel.index < n ∧ sel.addToBucket = true)) := by
  simp only [bucketStep1] at h
  by_cases hlen : (activeBucket pm).length < bucketSize
  · rw [if_pos hlen] at h
    refine ⟨hlen, ?_⟩
    by_cases hp : (pull && decide (0 < (getMasteredCards pm).length)) = true
    · rw [if_pos hp] at h
      have hne : getMasteredCards pm ≠ [] := by
        simp only [Bool.and_eq_true, decide_eq_true_eq] at hp
        exact List.length_pos.1 hp.2
      by_cases hc : (charAt n ((getMasteredCards pm).getD
          (rm % (getMasteredCards pm).length) 0)).isSome = true
      · rw [if_pos hc] at h
        obtain rfl := Option.some_injective _ h
        left
        exact ⟨getD_mod_mem _ hne rm, rfl⟩
      · rw [if_neg hc] at h
        simp at h
    · rw [if_neg hp] at h
      rcases hfind : (List.range n).find? (fun i => (lookupP pm i).isNone) with
        _ | i
      · rw [hfind] at h
        simp at h
      · rw [hfind] at h
        obtain rfl := Option.some_injective _ h
        right
        refine ⟨?_, ?_, rfl⟩
        · have := List.find?_some hfind
          simpa using this
        · have := List.mem_of_find?_eq_some hfind
          simpa using this
  · rw [if_neg hlen] at h
    simp at h

lemma bucketStep2_some (n : ℕ) (pm : ProgressMap) (rb : ℕ) (sel : Selection)
    (h : bucketStep2 n pm rb = some sel) :
    sel.index ∈ activeBucket pm ∧ sel.addToBucket = false := by
  simp only [bucketStep2] at h
  by_cases hlen : 0 < (activeBucket pm).length
  · rw [if_pos hlen] at h
    have hne : activeBucket pm ≠ [] := List.length_pos.1 hlen
    by_cases hc : (charAt n ((activeBucket pm).getD
        (rb % (activeBucket pm).length) 0)).isSome = true
    · rw [if_pos hc] at h
      obtain rfl := Option.some_injective _ h
      exact ⟨getD_mod_mem _ hne rb, rfl⟩
    · rw [if_neg hc] at h
      simp at h
  · rw [if_neg hlen] at h
    simp at h

lemma bucketStep2_none (n : ℕ) (pm : ProgressMap) (rb : ℕ)
    (hkeys : ∀ e ∈ pm, e.1 < n) (h : bucketStep2 n pm rb = none) :
    activeBucket pm = [] := by
  simp only [bucketStep2] at h
  by_cases hlen : 0 < (activeBucket pm).length
  · exfalso
    rw [if_pos hlen] at h
    have hne : activeBucket pm ≠ [] := List.length_pos.1 hlen
    have hmem := getD_mod_mem _ hne rb
    obtain ⟨q, hq, _⟩ := (mem_activeBucket_iff pm _).1 hmem
    have hidx : (activeBucket pm).getD (rb % (activeBucket pm).length) 0 < n :=
      hkeys _ hq
    rw [if_pos (by unfold charAt; rw [if_pos hidx]; rfl)] at h
    simp at h
  · exact List.eq_nil_of_length_eq_zero (by omega)

lemma bucketStep3_some (n : ℕ) (pm : ProgressMap) (rm2 : ℕ) (sel : Selection)
    (h : bucketStep3 n pm rm2 = some sel) :
    sel.index ∈ getMasteredCards pm ∧ sel.addToBucket = false := by
  simp only [bucketStep3] at h
  by_cases hlen : 0 < (getMasteredCards pm).length
  · rw [if_pos hlen] at h
    have hne : getMasteredCards pm ≠ [] := List.length_pos.1 hlen
    by_cases hc : (charAt n ((getMasteredCards pm).getD
        (rm2 % (getMasteredCards pm).length) 0)).isSome = true
    · rw [if_pos hc] at h
      obtain rfl := Option.some_injective _ h
      exact ⟨getD_mod_mem _ hne rm2, rfl⟩
    · rw [if_neg hc] at h
      simp at h
  · rw [if_neg hlen] at h
    simp at h

lemma bucketStep3_none (n : ℕ) (pm : ProgressMap) (rm2 : ℕ)
    (hkeys : ∀ e ∈ pm, e.1 < n) (h : bucketStep3 n pm rm2 = none) :
    getMasteredCards pm = [] := by
  simp only [bucketStep3] at h
  by_cases hlen : 0 < (getMasteredCards pm).length
  · exfalso
    rw [if_pos hlen] at h
    have hne : getMasteredCards pm ≠ [] := List.length_pos.1 hlen
    have hmem := getD_mod_mem _ hne rm2
    obtain ⟨q, hq, _⟩ := (mem_getMasteredCards_iff pm _).1 hmem
    have hidx : (getMasteredCards pm).getD
        (rm2 % (getMasteredCards pm).length) 0 < n := hkeys _ hq
    rw [if_pos (by unfold charAt; rw [if_pos hidx]; rfl)] at h
    simp at h
  · exact List.eq_nil_of_length_eq_zero (by omega)

lemma bucketStep4_some (n : ℕ) (sel : Selection)
    (h : bucketStep4 n = some sel) :
    sel.index = 0 ∧ 0 < n ∧ sel.addToBucket = true := by
  simp only [bucketStep4] at h
  by_cases hn : 0 < n
  · rw [if_pos hn] at h
    obtain rfl := Option.some_injective _ h
    exact ⟨rfl, hn, rfl⟩
  · rw [if_neg hn] at h
    simp at h

lemma bucketGetNextCard_cases (n : ℕ) (pm : ProgressMap) (pull : Bool)
    (rm rb rm2 : ℕ) (sel : Selection) (hkeys : ∀ e ∈ pm, e.1 < n)
    (hsel : bucketGetNextCard n pm pull rm rb rm2 = some sel) :
    ((activeBucket pm).length < bucketSize ∧ sel.index ∈ getMasteredCards pm ∧
      sel.addToBucket = false) ∨
    ((activeBucket pm).length < bucketSize ∧ lookupP pm sel.index = none ∧
      sel.index < n ∧ sel.addToBucket = true) ∨
    (sel.index ∈ activeBucket pm ∧ sel.addToBucket = false) ∨
    (sel.index = 0 ∧ 0 < n ∧ activeBucket pm = [] ∧
      getMasteredCards pm = [] ∧ sel.addToBucket = true) := by
  unfold bucketGetNextCard at hsel
  rcases h1 : bucketStep1 n pm pull rm with _ | s1
  all_goals rw [h1] at hsel
  case some =>
    simp only [Option.some_orElse] at hsel
    obtain rfl := Option.some_injective _ hsel
    obtain ⟨hlen, hcase⟩ := bucketStep1_some n pm pull rm s1 h1
    rcases hcase with hmc | hnew
    · exact Or.inl ⟨hlen, hmc⟩
    · exact Or.inr (Or.inl ⟨hlen, hnew⟩)
  case none =>
  simp only [Option.none_orElse] at hsel
  rcases h2 : bucketStep2 n pm rb with _ | s2
  all_goals rw [h2] at hsel
  case some =>
    simp only [Option.some_orElse] at hsel
    obtain rfl := Option.some_injective _ hsel
    exact Or.inr (Or.inr (Or.inl (bucketStep2_some n pm rb s2 h2)))
  case none =>
  simp only [Option.none_orElse] at hsel
  have hbempty := bucketStep2_none n pm rb hkeys h2
  rcases h3 : bucketStep3 n pm rm2 with _ | s3
  all_goals rw [h3] at hsel
  case some =>
    simp only [Option.some_orElse] at hsel
    obtain rfl := Option.some_injective _ hsel
    obtain ⟨hmem, hadd⟩ := bucketStep3_some n pm rm2 s3 h3
    refine Or.inl ⟨?_, hmem, hadd⟩
    rw [hbempty]
    simp [bucketSize]
  case none =>
  simp only [Option.none_orElse] at hsel
  have hmempty := bucketStep3_none n pm rm2 hkeys h3
  obtain ⟨hidx, hn, hadd⟩ := bucketStep4_some n sel hsel
  exact Or.inr (Or.inr (Or.inr ⟨hidx, hn, hbempty, hmempty, hadd⟩))

lemma isActive_new (d : ℕ) (b : Bool) (now : ℚ) :
    isActive (newBucketProgress d b now) = b := by
  unfold isActive newBucketProgress isCardMastered
  by_cases hd : 4 ≤ d <;> simp [hd]

lemma recordBucket_eq_new (pm : ProgressMap) (i d : ℕ) (b : Bool) (now : ℚ)
    (h : lookupP pm i = none) :
    recordBucket pm i d b now = setP pm i (newBucketProgress d b now) := by
  unfold recordBucket
  rw [h]

lemma recordBucket_eq_update (pm : ProgressMap) (i d : ℕ) (b : Bool)
    (now : ℚ) (q : Progress) (h : lookupP pm i = some q) :
    recordBucket pm i d b now = setP pm i (updateBucketProgress q d now) := by
  unfold recordBucket
  rw [h]

lemma bucketInv_step (n : ℕ) (pm : ProgressMap) (pull : Bool)
    (rm rb rm2 d : ℕ) (now : ℚ) (hinv : BucketInv n pm) :
    BucketInv n (bucketHostStep n pm pull rm rb rm2 d now) := by
  obtain ⟨hcount, hnd, hent⟩ := hinv
  unfold bucketHostStep
  rcases hsel : bucketGetNextCard n pm pull rm rb rm2 with _ | sel
  · exact ⟨hcount, hnd, hent⟩
  show BucketInv n (recordBucket pm sel.index d sel.addToBucket now)
  have hkeys : ∀ e ∈ pm, e.1 < n := fun e he => (hent e he).1
  have hcases := bucketGetNextCard_cases n pm pull rm rb rm2 sel hkeys hsel
  rcases hl : lookupP pm sel.index with _ | q
  · -- first presentation: a fresh record is appended
    rw [recordBucket_eq_new pm sel.index d sel.addToBucket now hl]
    set p := newBucketProgress d sel.addToBucket now with hp
    have hcount' := countP_setP_new pm sel.index p hl activeP
    rw [← activeBucket_length_eq_countP] at hcount'
    have hkeysnew : sel.index < n := by
      rcases hcases with ⟨_, hmem, _⟩ | ⟨_, _, hlt, _⟩ | ⟨hmem, _⟩ | ⟨hidx, hn, _⟩
      · obtain ⟨q', hq', _⟩ := (mem_getMasteredCards_iff pm _).1 hmem
        rw [mem_lookupP pm _ q' hnd hq'] at hl
        simp at hl
      · exact hlt
      · obtain ⟨q', hq', _⟩ := (mem_activeBucket_iff pm _).1 hmem
        rw [mem_lookupP pm _ q' hnd hq'] at hl
        simp at hl
      · omega
    have hsmall : sel.addToBucket = true → (activeBucket pm).length < bucketSize := by
      intro hadd
      rcases hcases with ⟨_, _, hf⟩ | ⟨hlt, _, _, _⟩ | ⟨_, hf⟩ | ⟨_, _, hbe, _, _⟩
      · rw [hadd] at hf
        simp at hf
      · exact hlt
      · rw [hadd] at hf
        simp at hf
      · rw [hbe]
        simp [bucketSize]
    refine ⟨?_, nodup_setP pm _ p hnd, ?_⟩
    · rw [hcount', ← activeBucket_length_eq_countP]
      have hchi : activeP (sel.index, p) = sel.addToBucket := by
        simp [activeP, hp, isActive_new]
      rw [hchi]
      rcases hb : sel.addToBucket
      · simpa using hcount
      · have := hsmall hb
        norm_num
        unfold bucketSize at *
        omega
    · intro e he
      rcases mem_setP pm _ p e he with rfl | hmem
      · exact ⟨hkeysnew, entryInv_new d sel.addToBucket now⟩
      · exact hent e hmem
  · -- existing record: updated in place
    rw [recordBucket_eq_update pm sel.index d sel.addToBucket now q hl]
    set p := updateBucketProgress q d now with hp
    have hqmem := lookupP_mem pm sel.index q hl
    obtain ⟨hqn, hqinv⟩ := hent _ hqmem
    have hcount' := countP_setP_update pm sel.index p q hnd hl activeP
    rw [← activeBucket_length_eq_countP, ← activeBucket_length_eq_countP]
      at hcount'
    refine ⟨?_, nodup_setP pm _ p hnd, ?_⟩
    · rcases hq1 : activeP (sel.index, q)
      · -- the rated record was not active before
        rcases hp1 : activeP (sel.index, p)
        · rw [hq1, hp1] at hcount'
          norm_num at hcount'
          omega
        · have hsmall : (activeBucket pm).length < bucketSize := by
            have hactp : isActive p = true := hp1
            have := isActive_update q d now hqinv hactp
            rcases this with hactq | hmast
            · exact absurd hactq (by simpa [activeP] using hq1)
            · have hmastq := entryInv_mastered q hqinv hmast
              rcases hcases with ⟨hlt, _, _⟩ | ⟨_, hnone, _, _⟩ |
                ⟨hmem, _⟩ | ⟨_, _, _, hme, _⟩
              · exact hlt
              · rw [hnone] at hl
                simp at hl
              · obtain ⟨q', hq', hact'⟩ := (mem_activeBucket_iff pm _).1 hmem
                rw [mem_lookupP pm _ q' hnd hq'] at hl
                obtain rfl := Option.some_injective _ hl
                exact absurd hact' (by simpa [activeP] using hq1)
              · exfalso
                have : sel.index ∈ getMasteredCards pm :=
                  (mem_getMasteredCards_iff pm _).2 ⟨q, hqmem, hmastq⟩
                rw [hme] at this
                simp at this
          rw [hq1, hp1] at hcount'
          norm_num at hcount'
          unfold bucketSize at *
          omega
      · rcases hp1 : activeP (sel.index, p) <;> rw [hq1, hp1] at hcount' <;>
          norm_num at hcount' <;> omega
    · intro e he
      rcases mem_setP pm _ p e he with rfl | hmem
      · exact ⟨hqn, entryInv_update q d now hqinv⟩
      · exact hent e hmem

lemma bucketInv_reachable (n : ℕ) (pm : ProgressMap)
    (h : BucketReachable n pm) : BucketInv n pm := by
  induction h with
  | init => exact ⟨by simp [activeBucket, bucketSize], by simp [keysOf], by simp⟩
  | step pm pull rm rb rm2 difficulty now _ ih =>
    exact bucketInv_step n pm pull rm rb rm2 difficulty now ih

/-- C3: under the Bucket variant, after any sequence of host-loop iterations
(selection with arbitrary randomness followed by recording an arbitrary
rating of the selected card) starting from an empty progress store, the
number of records that are `inBucket` and not mastered never exceeds the
configured `bucketSize` of 5. -/
theorem c3_bucket_capacity (n : ℕ) (pm : ProgressMap)
    (h : BucketReachable n pm) : (activeBucket pm).length ≤ bucketSize :=
  (bucketInv_reachable n pm h).1

/-- Witness for C3: a concrete two-step run on a three-item catalog (a new
card is added to the bucket and rated 5, then rated 4 again). -/
theorem c3_bucket_capacity_witness :
    (activeBucket (bucketHostStep 3
      (bucketHostStep 3 [] false 0 0 0 5 0) false 1 0 0 4 1)).length ≤
      bucketSize :=
  c3_bucket_capacity 3 _
    (BucketReachable.step _ false 1 0 0 4 1
      (BucketReachable.step _ false 0 0 0 5 0 BucketReachable.init))

/-! ### C2 and C4: lemmas about the Focused Sets recorder -/

lemma cumSelect_mem {α : Type} :
    ∀ (l : List (α × ℚ)) (t : ℚ) (a : α), cumSelect l t = some a →
      ∃ w, (a, w) ∈ l := by
  intro l
  induction l with
  | nil =>
    intro t a h
    simp [cumSelect] at h
  | cons hd rest ih =>
    intro t a h
    obtain ⟨b, w⟩ := hd
    simp only [cumSelect] at h
    by_cases hc : t - w ≤ 0
    · rw [if_pos hc] at h
      obtain rfl := Option.some_injective _ h
      exact ⟨w, List.mem_cons_self _ _⟩
    · rw [if_neg hc] at h
      obtain ⟨w', hw'⟩ := ih (t - w) a h
      exact ⟨w', List.mem_cons_of_mem _ hw'⟩

lemma weightedRandomSelect_mem (items : List Cand) (r : ℚ) (x : Cand)
    (h : weightedRandomSelect items r = some x) : x ∈ items := by
  rcases items with _ | ⟨a, _ | ⟨b, rest⟩⟩
  · simp [weightedRandomSelect] at h
  · simp only [weightedRandomSelect] at h
    obtain rfl := Option.some_injective _ h
    exact List.mem_cons_self _ _
  · simp only [weightedRandomSelect] at h
    rcases hc : cumSelect ((a :: b :: rest).zip (wrsWeights (a :: b :: rest)))
        (r * (wrsWeights (a :: b :: rest)).sum) with _ | y
    · rw [hc] at h
      obtain rfl := Option.some_injective _ h
      exact List.getLast_mem _
    · rw [hc] at h
      obtain rfl := Option.some_injective _ h
      obtain ⟨w, hw⟩ := cumSelect_mem _ _ _ hc
      exact (List.of_mem_zip hw).1

lemma weightedRandomSelect_eq_none (items : List Cand) (r : ℚ)
    (h : weightedRandomSelect items r = none) : items = [] := by
  rcases items with _ | ⟨a, _ | ⟨b, rest⟩⟩
  · rfl
  · simp [weightedRandomSelect] at h
  · simp only [weightedRandomSelect] at h
    rcases hc : cumSelect ((a :: b :: rest).zip (wrsWeights (a :: b :: rest)))
        (r * (wrsWeights (a :: b :: rest)).sum) with _ | y <;> rw [hc] at h <;>
      simp at h

lemma mem_fsCandidates (n : ℕ) (pm : ProgressMap) (j : ℕ) (sc : ℚ)
    (h : (j, sc) ∈ fsCandidates n pm) : j < n ∧ inSetB pm j = false := by
  unfold fsCandidates at h
  obtain ⟨i, hi, hf⟩ := List.mem_filterMap.1 h
  rcases hl : lookupP pm i with _ | p <;> rw [hl] at hf
  · obtain ⟨rfl, rfl⟩ : i = j ∧ getCardScore none = sc := by
      simpa using hf
    refine ⟨by simpa using hi, ?_⟩
    unfold inSetB
    rw [hl]
  · by_cases hin : p.inSet = true
    · simp [hin] at hf
    · simp only [hin, if_false, ite_false, Option.some.injEq,
        Prod.mk.injEq] at hf
      obtain ⟨rfl, rfl⟩ := hf
      refine ⟨by simpa using hi, ?_⟩
      unfold inSetB
      rw [hl]
      simpa using hin

lemma fsCandidates_ne_nil (n : ℕ) (pm : ProgressMap) (j : ℕ) (hj : j < n)
    (h : inSetB pm j = false) : fsCandidates n pm ≠ [] := by
  intro hc
  have hmem : (j, getCardScore (lookupP pm j)) ∈ fsCandidates n pm := by
    unfold fsCandidates
    refine List.mem_filterMap.2 ⟨j, List.mem_range.2 hj, ?_⟩
    show (match lookupP pm j with
      | some p => if p.inSet then none else some (j, getCardScore (some p))
      | none => some (j, getCardScore none)) =
        some (j, getCardScore (lookupP pm j))
    unfold inSetB at h
    rcases hl : lookupP pm j with _ | p
    · rfl
    · rw [hl] at h
      simp at h
      simp [h]
  rw [hc] at hmem
  simp at hmem

lemma inSetB_setP (pm : ProgressMap) (i : ℕ) (p : Progress) (k : ℕ) :
    inSetB (setP pm i p) k = if k = i then p.inSet else inSetB pm k := by
  unfold inSetB
  by_cases hk : k = i
  · subst hk
    rw [lookupP_setP_self, if_pos rfl]
  · rw [lookupP_setP_ne pm i k p hk, if_neg hk]

lemma backfillSet_spec (n : ℕ) (pm : ProgressMap) (now r : ℚ) :
    ((backfillSet n pm now r).2 = none ∧ (backfillSet n pm now r).1 = pm ∧
      fsCandidates n pm = []) ∨
    (∃ j, (backfillSet n pm now r).2 = some j ∧ j < n ∧ inSetB pm j = false ∧
      inSetB (backfillSet n pm now r).1 j = true ∧
      (lookupP (backfillSet n pm now r).1 j).isSome = true ∧
      ∀ k, k ≠ j → lookupP (backfillSet n pm now r).1 k = lookupP pm k) := by
  unfold backfillSet
  rcases hw : weightedRandomSelect (fsCandidates n pm) r with _ | ⟨j, sc⟩
  · exact Or.inl ⟨rfl, rfl, weightedRandomSelect_eq_none _ r hw⟩
  · right
    dsimp only
    obtain ⟨hjn, hjset⟩ := mem_fsCandidates n pm j sc
      (weightedRandomSelect_mem _ r _ hw)
    rcases hl : lookupP pm j with _ | q
    · refine ⟨j, rfl, hjn, hjset, ?_, ?_, ?_⟩
      · simp [inSetB_setP, backfillProgress]
      · simp [lookupP_setP_self]
      · intro k hk
        exact lookupP_setP_ne pm j k _ hk
    · refine ⟨j, rfl, hjn, hjset, ?_, ?_, ?_⟩
      · simp [inSetB_setP]
      · simp [lookupP_setP_self]
      · intro k hk
        exact lookupP_setP_ne pm j k _ hk

lemma recordFocusedAux_shape (n : ℕ) (pm : ProgressMap) (idx d : ℕ)
    (add : Bool) (now rback : ℚ) :
    (∃ P, recordFocusedAux n pm idx d add now rback = (setP pm idx P, none)) ∨
    (∃ P, recordFocusedAux n pm idx d add now rback =
      backfillSet n (setP pm idx P) now rback) := by
  unfold recordFocusedAux
  rcases hl : lookupP pm idx with _ | q
  · exact Or.inl ⟨_, rfl⟩
  · dsimp only
    split
    · split
      · exact Or.inr ⟨_, rfl⟩
      · exact Or.inl ⟨_, rfl⟩
    · exact Or.inl ⟨_, rfl⟩

lemma recordFocusedAux_lookup (n : ℕ) (pm : ProgressMap) (idx d : ℕ)
    (add : Bool) (now rback : ℚ) :
    (lookupP (recordFocusedAux n pm idx d add now rback).1 idx).isSome = true ∧
    (∀ j, (recordFocusedAux n pm idx d add now rback).2 = some j →
      (lookupP (recordFocusedAux n pm idx d add now rback).1 j).isSome = true) ∧
    (∀ k, k ≠ idx →
      (∀ j, (recordFocusedAux n pm idx d add now rback).2 = some j → k ≠ j) →
      lookupP (recordFocusedAux n pm idx d add now rback).1 k = lookupP pm k) := by
  rcases recordFocusedAux_shape n pm idx d add now rback with ⟨P, hP⟩ | ⟨P, hP⟩
  · rw [hP]
    refine ⟨by rw [lookupP_setP_self]; rfl, ?_, ?_⟩
    · intro j hj
      simp at hj
    · intro k hk _
      exact lookupP_setP_ne pm idx k P hk
  · rw [hP]
    rcases backfillSet_spec n (setP pm idx P) now rback with
      ⟨hnone, heq, _⟩ | ⟨j, hj, _, _, hjin, hjsome, hother⟩
    · rw [heq]
      refine ⟨by rw [lookupP_setP_self]; rfl, ?_, ?_⟩
      · intro j hj
        rw [hnone] at hj
        cases hj
      · intro k hk _
        exact lookupP_setP_ne pm idx k P hk
    · refine ⟨?_, ?_, ?_⟩
      · by_cases hji : idx = j
        · rw [← hji] at hjsome
          exact hjsome
        · rw [hother idx hji, lookupP_setP_self]
          rfl
      · intro j' hj'
        rw [hj] at hj'
        obtain rfl := Option.some_injective _ hj'
        exact hjsome
      · intro k hk hknot
        have hkj : k ≠ j := hknot j hj
        rw [hother k hkj]
        exact lookupP_setP_ne pm idx k P hk

lemma bump_apply (f : ℕ → ℕ) (i j : ℕ) :
    bump f i j = if j = i then f j + 1 else f j := rfl

lemma bumps_pos (l : List ℕ) : ∀ (f : ℕ → ℕ) (i : ℕ),
    1 ≤ bumps f l i ↔ 1 ≤ f i ∨ i ∈ l := by
  induction l with
  | nil =>
    intro f i
    simp [bumps]
  | cons a rest ih =>
    intro f i
    show 1 ≤ bumps (bump f a) rest i ↔ 1 ≤ f i ∨ i ∈ a :: rest
    rw [ih, bump_apply, List.mem_cons]
    by_cases hia : i = a
    · rw [if_pos hia]
      constructor
      · intro _
        exact Or.inr (Or.inl hia)
      · intro _
        left
        omega
    · rw [if_neg hia]
      constructor
      · rintro (h | h)
        · exact Or.inl h
        · exact Or.inr (Or.inr h)
      · rintro (h | h | h)
        · exact Or.inl h
        · exact absurd h hia
        · exact Or.inr h

lemma applyInit_lookup (l : List ℕ) :
    ∀ (pm : ProgressMap) (now : ℚ) (i : ℕ),
    (lookupP (applyInit pm now l) i).isSome = true ↔
      (lookupP pm i).isSome = true ∨ i ∈ l := by
  induction l with
  | nil =>
    intro pm now i
    simp [applyInit]
  | cons a rest ih =>
    intro pm now i
    show (lookupP (applyInit (if (lookupP pm a).isSome then pm
        else setP pm a (initRecord now)) now rest) i).isSome = true ↔ _
    rw [ih, List.mem_cons]
    by_cases ha : (lookupP pm a).isSome = true
    · rw [if_pos ha]
      constructor
      · rintro (h | h)
        · exact Or.inl h
        · exact Or.inr (Or.inr h)
      · rintro (h | rfl | h)
        · exact Or.inl h
        · exact Or.inl ha
        · exact Or.inr h
    · rw [if_neg ha]
      by_cases hia : i = a
      · subst hia
        rw [lookupP_setP_self]
        simp
      · rw [lookupP_setP_ne pm a i _ hia]
        constructor
        · rintro (h | h)
          · exact Or.inl h
          · exact Or.inr (Or.inr h)
        · rintro (h | h | h)
          · exact Or.inl h
          · exact absurd h hia
          · exact Or.inr h

/-- C2 (amended): under the Focused Sets host loop, a progress record exists
for an item if and only if the item has been presented at least once OR has
been admitted to the active set by a graduation backfill OR was admitted by
the startup initialization (both of which create `reviewCount = 0` records
for never-presented items). -/
theorem c2_record_exists_iff_presented_or_backfilled :
    ∀ (n : ℕ) (pm : ProgressMap) (seen backfilled inited : ℕ → ℕ),
      FSReachable n pm seen backfilled inited →
      ∀ i, (lookupP pm i).isSome = true ↔
        (1 ≤ seen i ∨ 1 ≤ backfilled i ∨ 1 ≤ inited i) := by
  intro n pm seen backfilled inited h
  induction h with
  | init now rs =>
    intro i
    rw [applyInit_lookup, bumps_pos]
    simp [lookupP]
  | step pm seen backfilled inited r rSet difficulty now rback hprev ih =>
    intro i
    obtain ⟨h1, h2, h3⟩ := recordFocusedAux_lookup n pm
      (fsGetNextCard n pm r rSet).index difficulty
      (fsGetNextCard n pm r rSet).addToSet now rback
    by_cases hi : i = (fsGetNextCard n pm r rSet).index
    · constructor
      · intro _
        left
        have hb : bump seen (fsGetNextCard n pm r rSet).index i =
            seen i + 1 := by
          unfold bump
          rw [if_pos hi]
        rw [hb]
        omega
      · intro _
        rw [hi]
        exact h1
    · rcases haux : (recordFocusedAux n pm (fsGetNextCard n pm r rSet).index
          difficulty (fsGetNextCard n pm r rSet).addToSet now rback).2 with
        _ | j
      · rw [h3 i hi (fun j hj => by rw [haux] at hj; cases hj)]
        have hb : bump seen (fsGetNextCard n pm r rSet).index i = seen i := by
          unfold bump
          rw [if_neg hi]
        rw [hb]
        show (lookupP pm i).isSome = true ↔
          1 ≤ seen i ∨ 1 ≤ backfilled i ∨ 1 ≤ inited i
        exact ih i
      · by_cases hij : i = j
        · constructor
          · intro _
            right
            left
            have hb : bumpOpt backfilled (some j) i = backfilled i + 1 := by
              simp only [bumpOpt, bump]
              rw [if_pos hij]
            rw [hb]
            omega
          · intro _
            rw [hij]
            exact h2 j haux
        · rw [h3 i hi (fun j' hj' => by
            rw [haux] at hj'
            obtain rfl := Option.some_injective _ hj'
            exact hij)]
          have hb1 : bump seen (fsGetNextCard n pm r rSet).index i =
              seen i := by
            unfold bump
            rw [if_neg hi]
          have hb2 : bumpOpt backfilled (some j) i = backfilled i := by
            simp only [bumpOpt, bump]
            rw [if_neg hij]
          rw [hb1, hb2]
          exact ih i

/-- Witness for C2 (amended): initialization of a one-item catalog admits
item 0 to the set and creates its record before any presentation. -/
theorem c2_record_exists_iff_witness :
    (lookupP (applyInit [] 0 (initializeSet 1 [] (fun _ => 0))) 0).isSome
        = true ↔
      (1 ≤ (0 : ℕ) ∨ 1 ≤ (0 : ℕ) ∨
       1 ≤ bumps (fun _ => 0) (initializeSet 1 [] (fun _ => 0)) 0) :=
  c2_record_exists_iff_presented_or_backfilled 1 _ _ _ _
    (FSReachable.init 0 (fun _ => 0)) 0

/-- C2 counterexample: app.js `init`, calling
`FocusedSetsAlgorithm.initializeSet` on a one-item catalog with an empty
progress store, creates a `reviewCount = 0` record for item 0 before the
item is ever presented, so a record's existence does not imply presentation
— refuting "record exists iff presented at least once". -/
theorem c2_record_presentation_counterexample :
    ¬ (∀ (n : ℕ) (pm : ProgressMap) (seen backfilled inited : ℕ → ℕ),
        FSReachable n pm seen backfilled inited →
        ∀ i, ((lookupP pm i).isSome = true ↔ 1 ≤ seen i)) := by
  intro hclaim
  have h := hclaim 1 _ _ _ _ (FSReachable.init 0 (fun _ => 0)) 0
  have heval : (lookupP (applyInit [] 0 (initializeSet 1 [] (fun _ => 0)))
      0).isSome = true := rfl
  exact absurd (h.1 heval) (by decide)

/-- Reduction of the Focused Sets recorder on a current set member: the item
graduates exactly when its updated score drops strictly below its entry
score, in which case it is marked out of the set and the backfill runs;
otherwise the store changes only at the item itself. -/
lemma recordFocusedAux_member (n : ℕ) (pm : ProgressMap)
    (idx difficulty : ℕ) (addToSet : Bool) (now rback : ℚ) (q : Progress)
    (e : ℚ) (hq : lookupP pm idx = some q) (hin : q.inSet = true)
    (he : q.setEntryScore = some e) :
    (¬ updateScore (q.score.getD 0) difficulty < e →
      ∃ P : Progress, P.inSet = true ∧
        recordFocusedAux n pm idx difficulty addToSet now rback
          = (setP pm idx P, none)) ∧
    (updateScore (q.score.getD 0) difficulty < e →
      ∃ P : Progress, P.inSet = false ∧
        recordFocusedAux n pm idx difficulty addToSet now rback
          = backfillSet n (setP pm idx P) now rback) := by
  unfold recordFocusedAux
  rw [hq]
  simp only [hin, he, Bool.not_true, Bool.and_false, Bool.false_eq_true,
    if_false, ite_false]
  constructor
  · intro hng
    rw [if_neg hng]
    exact ⟨_, rfl, rfl⟩
  · intro hg
    rw [if_pos hg]
    exact ⟨_, rfl, rfl⟩

/-- C4 (amended): recording a rating for a Score-Weighted set member leaves
the active set unchanged when the updated score is not strictly below the
entry score.  When the score does drop below the entry score the item is
removed and exactly one candidate `j` is admitted — but `j` may be the
graduating item itself (the backfill samples from candidates computed after
the item is marked out of the set, so the graduate is among them), which is
the correction to the claim that one *other* candidate is admitted and that
the graduate is absent from the set afterwards. -/
theorem c4_graduation_amended (n : ℕ) (pm : ProgressMap)
    (idx difficulty : ℕ) (addToSet : Bool) (now rback : ℚ) (q : Progress)
    (e : ℚ) (hq : lookupP pm idx = some q) (hin : q.inSet = true)
    (he : q.setEntryScore = some e) (hidx : idx < n) :
    (¬ updateScore (q.score.getD 0) difficulty < e →
      ∀ k, inSetB (recordFocused n pm idx difficulty addToSet now rback) k
        = inSetB pm k) ∧
    (updateScore (q.score.getD 0) difficulty < e →
      ∃ j, j < n ∧ (inSetB pm j = false ∨ j = idx) ∧
        ∀ k, inSetB (recordFocused n pm idx difficulty addToSet now rback) k
          = if k = j then true else
              if k = idx then false else inSetB pm k) := by
  obtain ⟨hng, hg⟩ :=
    recordFocusedAux_member n pm idx difficulty addToSet now rback q e
      hq hin he
  have hidxset : inSetB pm idx = true := by
    unfold inSetB
    rw [hq]
    exact hin
  constructor
  · intro h
    obtain ⟨P, hPin, hPeq⟩ := hng h
    intro k
    unfold recordFocused
    rw [hPeq]
    dsimp only
    rw [inSetB_setP]
    by_cases hk : k = idx
    · subst hk
      rw [if_pos rfl, hPin, hidxset]
    · rw [if_neg hk]
  · intro h
    obtain ⟨P, hPin, hPeq⟩ := hg h
    have hmidk : ∀ k, inSetB (setP pm idx P) k
        = if k = idx then false else inSetB pm k := by
      intro k
      rw [inSetB_setP, hPin]
    have hmididx : inSetB (setP pm idx P) idx = false := by
      rw [hmidk, if_pos rfl]
    rcases backfillSet_spec n (setP pm idx P) now rback with
      ⟨_, _, hcand⟩ | ⟨j, _, hjn, hjmid, hjin, _, hother⟩
    · exact absurd hcand
        (fsCandidates_ne_nil n (setP pm idx P) idx hidx hmididx)
    · refine ⟨j, hjn, ?_, ?_⟩
      · by_cases hji : j = idx
        · exact Or.inr hji
        · left
          have hj' := hjmid
          rw [hmidk j, if_neg hji] at hj'
          exact hj'
      · intro k
        unfold recordFocused
        rw [hPeq]
        by_cases hkj : k = j
        · subst hkj
          rw [if_pos rfl]
          exact hjin
        · rw [if_neg hkj]
          have hpres : inSetB (backfillSet n (setP pm idx P) now rback).1 k
              = inSetB (setP pm idx P) k := by
            unfold inSetB
            rw [hother k hkj]
          rw [hpres]
          exact hmidk k

/-- Witness for C4 (amended): a one-item catalog whose single item sits in
the set with score 0 and entry score 0; rating it 5 drops the score to -3
and triggers graduation with a backfill admission. -/
theorem c4_graduation_amended_witness :
    updateScore ((backfillProgress 0 1).score.getD 0) 5 < 0 ∧
    (∃ j, j < 1 ∧
      (inSetB [(0, backfillProgress 0 1)] j = false ∨ j = 0) ∧
      ∀ k, inSetB (recordFocused 1 [(0, backfillProgress 0 1)] 0 5 false
          2 0) k
        = if k = j then true else
            if k = 0 then false else inSetB [(0, backfillProgress 0 1)] k) :=
  ⟨by norm_num [updateScore, backfillProgress],
   (c4_graduation_amended 1 [(0, backfillProgress 0 1)] 0 5 false 2 0
      (backfillProgress 0 1) 0 rfl rfl rfl (by decide)).2
    (by norm_num [updateScore, backfillProgress])⟩

set_option maxHeartbeats 1000000 in
/-- C4 counterexample: the claim says a graduating item ("score <
setEntryScore") is not in the active set afterwards.  On a one-item catalog
whose item is in the set with score 0 and entry 0, rating it 5 drops the
score to -3 and it graduates — but the backfill, sampling candidates
computed after the item was marked out of the set, re-admits the very same
item, so it is still in the set. -/
theorem c4_graduation_counterexample :
    ¬ (∀ (n : ℕ) (pm : ProgressMap) (idx difficulty : ℕ) (addToSet : Bool)
        (now rback : ℚ) (q : Progress) (e : ℚ),
        lookupP pm idx = some q → q.inSet = true →
        q.setEntryScore = some e →
        updateScore (q.score.getD 0) difficulty < e →
        inSetB (recordFocused n pm idx difficulty addToSet now rback) idx
          = false) := by
  intro hclaim
  have h := hclaim 1 [(0, backfillProgress 0 1)] 0 5 false 2 0
    (backfillProgress 0 1) 0 rfl rfl rfl
    (by norm_num [updateScore, backfillProgress])
  have hrange : List.range 1 = [0] := rfl
  have heval : inSetB (recordFocused 1 [(0, backfillProgress 0 1)] 0 5 false
      2 0) 0 = true := by
    unfold recordFocused recordFocusedAux
    norm_num [getActiveSet, fsCandidates, lookupP, charAt, setSize, hrange,
      List.filterMap_cons, List.filterMap_nil, List.find?_cons_of_pos,
      List.find?_cons_of_neg, List.find?_nil, getCardScore,
      weightedRandomSelect, wrsWeights, wrsOffset, minScoreOf, cumSelect,
      min_def, max_def, List.zip_cons_cons, List.zip_nil_right, List.sum_cons,
      List.sum_nil, List.map_cons, List.map_nil, List.foldl_cons,
      List.foldl_nil, abs_of_neg, abs_of_nonneg, List.length_cons,
      List.length_nil, List.getD, List.filter_cons, List.filter_nil,
      setP, newFocusedProgress, updateScore, backfillSet, backfillProgress,
      inSetB]
  rw [heval] at h
  exact Bool.noConfusion h

end CharacterCram
